import Mathlib

/-!
Verification development for the spatial-acceleration ray-intersection engine
of a recursive ray tracer (AABB tree over scene elements, per-primitive
intersection routines, and the recursive shading loop).

The C++ sources are shallowly embedded: `float`/`double` arithmetic is
idealized as a linear ordered field `α` (instantiated at `ℚ` for executable
witnesses and at `ℝ` where trigonometry is needed); the float library's
`sqrt` and `powf` routines are modelled as explicit function parameters
(`sq`, `pw`), so that instantiating them with `Real.sqrt` and `Real.rpow`
recovers the exact idealization.
-/

set_option autoImplicit false
set_option linter.unusedVariables false

/-- 3D vectors, indexed by `Fin 3` (models `Eigen::Vector3f`). -/
abbrev V3 (α : Type*) := Fin 3 → α

variable {α : Type*} [LinearOrderedField α]

/-- Dot product of 3D vectors. -/
def dot3 (a b : V3 α) : α := a 0 * b 0 + a 1 * b 1 + a 2 * b 2

/-- Cross product of 3D vectors. -/
def cross3 (a b : V3 α) : V3 α :=
  ![a 1 * b 2 - a 2 * b 1, a 2 * b 0 - a 0 * b 2, a 0 * b 1 - a 1 * b 0]

/-- Eigen `v.normalize()` / `v.normalized()`: divide by the euclidean norm,
with the square root modelled by the parameter `sq` applied to `v.dot(v)`. -/
def normalize3 (sq : α → α) (v : V3 α) : V3 α := fun i => v i / sq (dot3 v v)

/-- `ray_t` (shape/ray.h): start position and direction.  The class keeps
`direction` normalized through its constructors and `set`; `ray_set` below
models `ray_t::set`.  Theorems quantify over all origin/direction pairs,
which covers every reachable `ray_t` state. -/
structure ray_t (α : Type*) where
  origin : V3 α
  direction : V3 α

/-- `ray_t::set(oo, dd)`: stores the origin and the normalized direction. -/
def ray_set (sq : α → α) (o d : V3 α) : ray_t α := ⟨o, normalize3 sq d⟩

/-- `ray_t::point_at(t) = origin + t * direction`. -/
def ray_t.point_at (r : ray_t α) (t : α) : V3 α := r.origin + t • r.direction

/-- `aabb_t` (shape/aabb.h): extrema corners `bounds(d,0) = lo d`,
`bounds(d,1) = hi d`. -/
structure aabb_t (α : Type*) where
  lo : V3 α
  hi : V3 α

/-- `aabb_t::reset()` / default constructor: the invalid sentinel box
`set(1,-1,1,-1,1,-1)` with `min > max` on every axis. -/
def aabb_reset : aabb_t α := ⟨![1, 1, 1], ![(-1), -1, -1]⟩

/-- `aabb_t::expand_to(const Vector3f&)` (shape/aabb.cpp): per axis, an
invalid axis snaps to the point, a valid axis grows by min/max. -/
def aabb_t.expand_pt (b : aabb_t α) (p : V3 α) : aabb_t α :=
  ⟨fun i => if b.hi i < b.lo i then p i else min (b.lo i) (p i),
   fun i => if b.hi i < b.lo i then p i else max (b.hi i) (p i)⟩

/-- Modelled from the spec: `aabb_t::expand_to(const aabb_t&)` is declared in
`shape/aabb.h` and used by the tree build, but its implementation is not
among the source files.  Per the spec it "grows min/max per axis; starting
from the invalid sentinel, the first expansion exactly matches the input". -/
def aabb_t.expand_box (b c : aabb_t α) : aabb_t α :=
  ⟨fun i => if b.hi i < b.lo i then c.lo i else min (b.lo i) (c.lo i),
   fun i => if b.hi i < b.lo i then c.hi i else max (b.hi i) (c.hi i)⟩

/-- Modelled from the spec: `aabb_t::center(d)` is used by the tree build
(`midpoints.center(dim_to_split)`, `aabb_node_t::midpoint`) but its
implementation is not among the source files.  Per the spec the build
"split[s] at the midpoint-box's center along that axis", the average of the
axis extrema. -/
def aabb_t.center (b : aabb_t α) (d : Fin 3) : α := (b.lo d + b.hi d) / 2

/-- `aabb_t::intersects` (shape/aabb.cpp): the slab method.  The source
selects `bounds(i, s[i])` with `s[i] = (1/dir[i] < 0)` for the entry plane
and `bounds(i, 1-s[i])` for the exit plane, then walks x, y, z with the same
early exits, tracking which axis produced the entry/exit for the face
normal, and clamps to `t_min` when the ray starts inside the box. -/
def aabb_t.intersects (b : aabb_t α) (r : ray_t α) (t_min t_max : α) :
    Option (α × V3 α) :=
  let invdir : Fin 3 → α := fun i => 1 / r.direction i
  let sgn : Fin 3 → α := fun i => if invdir i < 0 then 1 else -1
  let near : Fin 3 → α := fun i => if invdir i < 0 then b.hi i else b.lo i
  let far : Fin 3 → α := fun i => if invdir i < 0 then b.lo i else b.hi i
  let e : Fin 3 → α := fun i => (near i - r.origin i) * invdir i
  let x : Fin 3 → α := fun i => (far i - r.origin i) * invdir i
  if x 0 < t_min ∨ e 0 > t_max then none
  else if e 0 > x 1 ∨ e 1 > x 0 then none
  else
    let tmin1 := if e 1 > e 0 then e 1 else e 0
    let dmin1 : Fin 3 := if e 1 > e 0 then 1 else 0
    let tmax1 := if x 1 < x 0 then x 1 else x 0
    let dmax1 : Fin 3 := if x 1 < x 0 then 1 else 0
    if tmax1 < t_min ∨ tmin1 > t_max then none
    else if tmin1 > x 2 ∨ e 2 > tmax1 then none
    else
      let tmin2 := if e 2 > tmin1 then e 2 else tmin1
      let dmin2 : Fin 3 := if e 2 > tmin1 then 2 else dmin1
      let tmax2 := if x 2 < tmax1 then x 2 else tmax1
      let dmax2 : Fin 3 := if x 2 < tmax1 then 2 else dmax1
      if tmax2 < t_min ∨ tmin2 > t_max then none
      else if tmin2 < t_min then
        some (t_min, fun j => if j = dmax2 then sgn dmax2 else 0)
      else
        some (tmin2, fun j => if j = dmin2 then sgn dmin2 else 0)

/-- `aabb_t::get_bounds` is the identity on the box itself; a box used as a
shape reports itself as bounds. -/
def aabb_t.get_bounds (b : aabb_t α) : aabb_t α := b

/-- `triangle_t` (shape/triangle.h): vertices plus the cached edge vectors
`edges[0] = verts[1] - verts[0]`, `edges[1] = verts[2] - verts[0]` and the
cached normalized face normal. -/
structure triangle_t (α : Type*) where
  verts : Fin 3 → V3 α
  edges : Fin 2 → V3 α
  normal : V3 α

/-- The `triangle_t` coordinate constructor: copies vertices, builds the edge
cache, and stores the normalized cross product as the face normal. -/
def triangle_mk (sq : α → α) (a b c : V3 α) : triangle_t α :=
  ⟨![a, b, c], ![b - a, c - a], normalize3 sq (cross3 (b - a) (c - a))⟩

/-- `triangle_t::intersects` (shape/triangle.h): Moller-Trumbore with the
cached edges; strict comparisons reject, so exact boundary values count as
hits, and the cached normal is negated when the signed determinant is
negative. -/
def triangle_t.intersects (tri : triangle_t α) (r : ray_t α)
    (t_min t_max : α) : Option (α × V3 α) :=
  let pvec := cross3 r.direction (tri.edges 1)
  let det := dot3 (tri.edges 0) pvec
  let inv_det := 1 / det
  let tvec := r.origin - tri.verts 0
  let u := dot3 tvec pvec * inv_det
  if u < 0 ∨ u > 1 then none
  else
    let qvec := cross3 tvec (tri.edges 0)
    let v := dot3 r.direction qvec * inv_det
    if v < 0 ∨ u + v > 1 then none
    else
      let t := dot3 (tri.edges 1) qvec * inv_det
      if t < t_min ∨ t > t_max then none
      else some (t, if det < 0 then -tri.normal else tri.normal)

/-- `triangle_t::get_bounds`: reset the box and expand to the three
vertices. -/
def triangle_t.get_bounds (tri : triangle_t α) : aabb_t α :=
  ((aabb_reset.expand_pt (tri.verts 0)).expand_pt (tri.verts 1)).expand_pt
    (tri.verts 2)

/-- `sphere_t` (shape/sphere.h): center and radius.  The class caches
`radius_squared = radius * radius` (kept consistent by every constructor and
by `set_radius`), which the embedding computes directly. -/
structure sphere_t (α : Type*) where
  center : V3 α
  radius : α

/-- `sphere_t::intersects` (shape/sphere.h): solve
`t^2 + 2 d.c t + (|c|^2 - r^2) = 0` (for unit `d`).  A negative discriminant
is no hit; a zero discriminant returns `-B/2` directly (note: without any
range check); two distinct roots are range-checked and the smaller in-range
root is preferred, falling back to the larger when the smaller lies below
`t_min`. -/
def sphere_t.intersects (sq : α → α) (sp : sphere_t α) (r : ray_t α)
    (t_min t_max : α) : Option (α × V3 α) :=
  let d := r.direction
  let c := sp.center - r.origin
  let B := -2 * dot3 d c
  let C := dot3 c c - sp.radius * sp.radius
  let root := B * B - 4 * C
  if root < 0 then none
  else if root = 0 then
    let t := -B / 2
    some (t, normalize3 sq (fun i => (r.point_at t - sp.center) i / sp.radius))
  else
    let rt := sq root
    let t1 := (-B - rt) / 2
    let t2 := (-B + rt) / 2
    if t2 < t_min then none
    else if t1 > t_max then none
    else if t1 < t_min ∧ t2 > t_max then none
    else
      let t := if t1 < t_min then t2 else t1
      some (t, normalize3 sq (fun i => (r.point_at t - sp.center) i / sp.radius))

/-- `sphere_t::get_bounds`: the cube fit around the sphere. -/
def sphere_t.get_bounds (sp : sphere_t α) : aabb_t α :=
  ⟨fun i => sp.center i - sp.radius, fun i => sp.center i + sp.radius⟩

/-- `camera_t` (scene/camera.h): eye position and the four view-plane
corners. -/
structure camera_t (α : Type*) where
  eye : V3 α
  UL : V3 α
  UR : V3 α
  LL : V3 α
  LR : V3 α

/-- `camera_t::get_ray` (scene/camera.cpp): bilinear interpolation of the
view-plane corners (`u` rightward, `v` downward), then `ray.set(eye, p - eye)`
(which normalizes the direction). -/
def camera_t.get_ray (sq : α → α) (cam : camera_t α) (u v : α) : ray_t α :=
  let p := (1 - u) • (v • cam.LL + (1 - v) • cam.UL)
    + u • (v • cam.LR + (1 - v) • cam.UR)
  ray_set sq cam.eye (p - cam.eye)

/-! ## Shared helper lemmas -/

theorem ite_chain3 {β : Type*} (A1 A2 A3 : Prop) [Decidable A1] [Decidable A2]
    [Decidable A3] (x : Option β) :
    (if A1 then none else if A2 then none else if A3 then none else x)
      = (if ¬A1 ∧ ¬A2 ∧ ¬A3 then x else none) := by
  split_ifs <;> tauto

/-! ## C3: sphere intersection -/

/-- C3: the claim states that every hit reported by `sphere_t::intersects` has
its `t` within `[t_min, t_max]`.  The code violates this: when the
discriminant is exactly zero it returns `t = -B/2` without any range check.
For the sphere of radius 1 centered at `(5,1,0)` and the ray from the origin
along `+x` (discriminant `= 0`, tangent at `t = 5`) with range `[0, 1]`, the
code reports a hit at `t = 5`, which exceeds `t_max = 1`. -/
theorem sphere_tangent_hit_ignores_t_range :
    ((sphere_t.intersects (fun x => x) ⟨![5,1,0], 1⟩ ⟨![0,0,0], ![1,0,0]⟩ 0 1 :
        Option (ℚ × V3 ℚ)).map Prod.fst = some 5) ∧ ¬((5:ℚ) ≤ 1) := by
  constructor
  · norm_num [sphere_t.intersects, dot3, ray_t.point_at, Matrix.cons_val_zero,
      Matrix.cons_val_one, Matrix.head_cons, Pi.sub_apply]
  · norm_num

/-! ## C5: triangle intersection -/

/-- C5: Moller-Trumbore with the precomputed edges reports a hit exactly when
the barycentric coordinates satisfy `u ∈ [0,1]`, `v ≥ 0`, `u + v ≤ 1` and the
hit parameter `t` lies in `[t_min, t_max]` (closed bounds, so exact boundary
values count as hits), and the reported normal is the cached face normal,
negated when the signed determinant is negative. -/
theorem triangle_intersects_moller_trumbore (tri : triangle_t α) (r : ray_t α)
    (t_min t_max : α)
    (hdet : dot3 (tri.edges 0) (cross3 r.direction (tri.edges 1)) ≠ 0) :
    tri.intersects r t_min t_max =
      (let det := dot3 (tri.edges 0) (cross3 r.direction (tri.edges 1))
       let u := dot3 (r.origin - tri.verts 0) (cross3 r.direction (tri.edges 1)) / det
       let v := dot3 r.direction (cross3 (r.origin - tri.verts 0) (tri.edges 0)) / det
       let t := dot3 (tri.edges 1) (cross3 (r.origin - tri.verts 0) (tri.edges 0)) / det
       if 0 ≤ u ∧ u ≤ 1 ∧ 0 ≤ v ∧ u + v ≤ 1 ∧ t_min ≤ t ∧ t ≤ t_max then
         some (t, if det < 0 then -tri.normal else tri.normal)
       else none) := by
  simp only [triangle_t.intersects, mul_one_div]
  rw [ite_chain3]
  refine if_congr ?_ rfl rfl
  simp only [not_or, not_lt]
  tauto

/-- Witness for C5: the spec's example triangle `(0,0,0),(1,0,0),(0,1,0)` hit
by the ray from `(1/3,1/3,1)` straight down the z-axis at `t = 1`. -/
theorem triangle_intersects_moller_trumbore_witness :
    (dot3 ((triangle_mk (fun x => x) ![0,0,0] ![1,0,0] ![0,1,0] : triangle_t ℚ).edges 0)
        (cross3 (![0,0,-1] : V3 ℚ)
          ((triangle_mk (fun x => x) ![0,0,0] ![1,0,0] ![0,1,0] : triangle_t ℚ).edges 1)) ≠ 0) ∧
    (((triangle_mk (fun x => x) ![0,0,0] ![1,0,0] ![0,1,0] : triangle_t ℚ).intersects
        ⟨![1/3,1/3,1], ![0,0,-1]⟩ 0 2).map Prod.fst = some 1) := by
  constructor
  · norm_num [triangle_mk, dot3, cross3]
  · rw [triangle_intersects_moller_trumbore _ _ 0 2 (by norm_num [triangle_mk, dot3, cross3])]
    norm_num [triangle_mk, dot3, cross3]

/-! ## C7: camera ray generation -/

/-- C7 counterexample: the claim puts `(u,v) = (0,0)` on the `LL` corner and
`(1,1)` on `UR`.  At the concrete camera with eye at the origin and corners
`UL = (-1,1,-1)`, `UR = (1,1,-1)`, `LL = (-1,-1,-1)`, `LR = (1,-1,-1)` the ray
at `(0,0)` does not point at `LL` (its y-component is positive): the source's
`v` axis points downward, so `(0,0)` is the `UL` corner and `(1,1)` is `LR`. -/
theorem camera_get_ray_claim_counterexample :
    ¬ (((camera_t.get_ray Real.sqrt
            ⟨![0,0,0], ![-1,1,-1], ![1,1,-1], ![-1,-1,-1], ![1,-1,-1]⟩ 0 0 :
          ray_t ℝ).direction
          = normalize3 Real.sqrt ((![-1,-1,-1] : V3 ℝ) - ![0,0,0])) ∧
       ((camera_t.get_ray Real.sqrt
            ⟨![0,0,0], ![-1,1,-1], ![1,1,-1], ![-1,-1,-1], ![1,-1,-1]⟩ 1 1 :
          ray_t ℝ).direction
          = normalize3 Real.sqrt ((![1,1,-1] : V3 ℝ) - ![0,0,0]))) := by
  intro h
  have h1 := congrFun h.1 1
  have h3 : (0:ℝ) < Real.sqrt 3 := Real.sqrt_pos.2 (by norm_num)
  norm_num [camera_t.get_ray, ray_set, normalize3, dot3] at h1
  have h6 : 0 < (Real.sqrt 3)⁻¹ := inv_pos.2 h3
  rw [h1] at h6
  have h5 : -1 / Real.sqrt 3 < 0 := div_neg_of_neg_of_pos (by norm_num) h3
  linarith

/-- C7 amended: `get_ray` at `(0,0)` produces the ray from the eye through the
`UL` corner, at `(1,1)` through `LR`, and at `(0.5,0.5)` through the centroid
of the four view-plane corners (the source's `v` axis points downward). -/
theorem camera_get_ray_corners_amended (sq : α → α) (cam : camera_t α) :
    camera_t.get_ray sq cam 0 0 = ray_set sq cam.eye (cam.UL - cam.eye) ∧
    camera_t.get_ray sq cam 1 1 = ray_set sq cam.eye (cam.LR - cam.eye) ∧
    camera_t.get_ray sq cam (1/2) (1/2) =
      ray_set sq cam.eye ((1/4 : α) • (cam.LL + cam.UL + cam.LR + cam.UR) - cam.eye) := by
  refine ⟨?_, ?_, ?_⟩ <;>
  · show ray_set sq cam.eye _ = _
    congr 2
    funext i
    simp only [Pi.add_apply, Pi.smul_apply, Pi.sub_apply, smul_eq_mul]
    ring

/-! ## Transform (geometry/transform.h + transform.cpp, cached-inverse variant) -/

/-- `transform_t`: homogeneous matrix `H` with the cached inverse `H_inv`. -/
structure transform_t (α : Type*) where
  H : Matrix (Fin 4) (Fin 4) α
  H_inv : Matrix (Fin 4) (Fin 4) α

/-- Eigen's `.inverse()` on a 4x4 matrix, computably: the adjugate divided by
the determinant.  `mat_inverse_eq_inv` identifies it with Mathlib's `⁻¹`. -/
def mat_inverse (A : Matrix (Fin 4) (Fin 4) α) : Matrix (Fin 4) (Fin 4) α :=
  (A.det)⁻¹ • A.adjugate

theorem mat_inverse_eq_inv (A : Matrix (Fin 4) (Fin 4) α) :
    mat_inverse A = A⁻¹ := by
  rw [mat_inverse, Matrix.inv_def, Ring.inverse_eq_inv]

/-- `transform_t::reset()`: `H` becomes the identity and `H_inv = H`. -/
def transform_t.reset (T : transform_t α) : transform_t α := ⟨1, 1⟩

/-- `transform_t::set_translation`: dense translation matrix, with
`H_inv = H.inverse()` (Eigen's exact inverse, idealized as matrix inversion
over the field). -/
def transform_t.set_translation (T : transform_t α) (tx ty tz : α) :
    transform_t α :=
  let H : Matrix (Fin 4) (Fin 4) α :=
    !![1,0,0,tx; 0,1,0,ty; 0,0,1,tz; 0,0,0,1]
  ⟨H, mat_inverse H⟩

/-- `transform_t::set_scale`: diagonal scale matrix with recomputed inverse. -/
def transform_t.set_scale (T : transform_t α) (sx sy sz : α) : transform_t α :=
  let H : Matrix (Fin 4) (Fin 4) α :=
    !![sx,0,0,0; 0,sy,0,0; 0,0,sz,0; 0,0,0,1]
  ⟨H, mat_inverse H⟩

/-- `transform_t::set_rotation` (geometry/transform.cpp): Rodrigues formula on
the exponential map given in degrees.  `M_PI` is idealized as the parameter
`piv`, the float library's `sqrt`, `sin`, `cos` as `sq`, `si`, `co`.  Note
that, unlike every other mutator, the source does NOT recompute `H_inv`: the
cached inverse keeps its previous value. -/
def transform_t.set_rotation (sq si co : α → α) (piv : α) (T : transform_t α)
    (rx ry rz : α) : transform_t α :=
  let r0 : V3 α := ![rx * piv / 180, ry * piv / 180, rz * piv / 180]
  let mag := sq (dot3 r0 r0)
  let r : V3 α := ![r0 0 / mag, r0 1 / mag, r0 2 / mag]
  let K : Matrix (Fin 3) (Fin 3) α :=
    !![0, -(r 2), r 1; r 2, 0, -(r 0); -(r 1), r 0, 0]
  let R := Matrix.vecMulVec r r + si mag • K - co mag • (K * K)
  ⟨!![R 0 0, R 0 1, R 0 2, 0;
      R 1 0, R 1 1, R 1 2, 0;
      R 2 0, R 2 1, R 2 2, 0;
      0, 0, 0, 1],
   T.H_inv⟩

/-- `transform_t::cat(t)`: `H := t.H * H`, `H_inv := H.inverse()`. -/
def transform_t.cat (T : transform_t α) (t : transform_t α) : transform_t α :=
  ⟨t.H * T.H, mat_inverse (t.H * T.H)⟩

/-- Homogeneous embedding of a point (`w = 1`). -/
def homog_pt (p : V3 α) : Fin 4 → α := ![p 0, p 1, p 2, 1]

/-- Projection from homogeneous 4-vectors back to 3D. -/
def dehomog (x : Fin 4 → α) : V3 α := ![x 0, x 1, x 2]

/-- `transform_t::apply(point)`: multiply by `H` with `w = 1`. -/
def transform_t.apply_pt (T : transform_t α) (p : V3 α) : V3 α :=
  dehomog (T.H.mulVec (homog_pt p))

/-- `transform_t::apply_inverse(point)`: multiply by `H_inv` with `w = 1`. -/
def transform_t.apply_inverse_pt (T : transform_t α) (p : V3 α) : V3 α :=
  dehomog (T.H_inv.mulVec (homog_pt p))

/-- `transform_t::apply_normal(n)`: multiply `(n, 0)` by the transpose of
`H_inv` (the inverse-transpose normal transform), then renormalize. -/
def transform_t.apply_normal (sq : α → α) (T : transform_t α) (n : V3 α) :
    V3 α :=
  normalize3 sq (dehomog ((T.H_inv.transpose).mulVec ![n 0, n 1, n 2, 0]))

/-- `transform_t::apply_inverse(ray, s)`: transform the two points `origin`
and `origin + direction`, rebuild the ray with `set` (which normalizes), and
return the scale `s = |q - p|`. -/
def transform_t.apply_inverse_ray (sq : α → α) (T : transform_t α)
    (r : ray_t α) : ray_t α × α :=
  let p := T.apply_inverse_pt r.origin
  let q := T.apply_inverse_pt (r.origin + r.direction)
  (ray_set sq p (q - p), sq (dot3 (q - p) (q - p)))

/-- `aabb_t::apply(transform)` (shape/aabb.cpp): transform the 8 corners
(corner `ci` picks `bounds(di, (ci >> di) & 1)` on axis `di`), then re-fit:
start from transformed corner 0 and expand by min/max over corners 1..7. -/
def aabb_t.apply (b : aabb_t α) (T : transform_t α) : aabb_t α :=
  let corner : ℕ → V3 α := fun ci di =>
    if (ci >>> (di : ℕ)) % 2 = 1 then b.hi di else b.lo di
  let tc : ℕ → V3 α := fun ci => T.apply_pt (corner ci)
  (List.range 7).foldl
    (fun bx k =>
      ⟨fun di => min (bx.lo di) (tc (k + 1) di),
       fun di => max (bx.hi di) (tc (k + 1) di)⟩)
    ⟨fun di => tc 0 di, fun di => tc 0 di⟩

/-! ## Shapes as an interface, elements (scene/element.h) -/

/-- The `shape_t` virtual interface: ray intersection plus local bounds.
`sphere_t`, `triangle_t` and `aabb_t` provide the implementations below. -/
structure shape_t (α : Type*) where
  intersects : ray_t α → α → α → Option (α × V3 α)
  get_bounds : aabb_t α

/-- A sphere viewed through the `shape_t` interface. -/
def sphere_t.to_shape (sq : α → α) (sp : sphere_t α) : shape_t α :=
  ⟨sp.intersects sq, sp.get_bounds⟩

/-- A triangle viewed through the `shape_t` interface. -/
def triangle_t.to_shape (tri : triangle_t α) : shape_t α :=
  ⟨tri.intersects, tri.get_bounds⟩

/-- `phong_shader_t` (scene/phong_shader.h): the material coefficients. -/
structure phong_shader_t (α : Type*) where
  ka : V3 α
  kd : V3 α
  ks : V3 α
  kr : V3 α
  p : α

/-- `element_t` (scene/element.h): a possibly-null shape pointer, the
object-to-world transform, and the material. -/
structure element_t (α : Type*) where
  shape : Option (shape_t α)
  transform : transform_t α
  shader : phong_shader_t α

/-- The `element_t` default constructor: null shape, identity transform, and
the default texture (`ka = 0`, `kd = (0.9, 0.2, 0.2)`, `ks = 1`, `p = 255`;
`kr` stays at the `phong_shader_t` default `0`). -/
def element_default : element_t α :=
  ⟨none, ⟨1, 1⟩,
   ⟨fun _ => 0, ![9/10, 1/5, 1/5], fun _ => 1, fun _ => 0, 255⟩⟩

/-- `element_t::intersects` (scene/element.h): null shape is never hit;
otherwise transform the ray to object space obtaining `scale`, intersect the
shape over `[t_min * scale, t_max * scale]`, and on a hit convert the normal
with `apply_normal` and divide `t` by `scale`. -/
def element_t.intersects (sq : α → α) (e : element_t α) (r : ray_t α)
    (t_min t_max : α) : Option (α × V3 α) :=
  match e.shape with
  | none => none
  | some sh =>
    let pr := e.transform.apply_inverse_ray sq r
    match sh.intersects pr.1 (t_min * pr.2) (t_max * pr.2) with
    | none => none
    | some (t, n) => some (t / pr.2, e.transform.apply_normal sq n)

/-! ## C8: element-level coordinate-space conversion -/

/-- C8: `element_t::intersects` transforms the world-space ray to object space
with `apply_inverse(ray, scale)`, multiplies `t_min`/`t_max` by the scale,
delegates to the shape, and on a hit converts the normal to world space with
`apply_normal` (the renormalized inverse-transpose transform) and divides the
reported `t` by the scale. -/
theorem element_intersects_space_conversion (sq : α → α) (e : element_t α)
    (sh : shape_t α) (hsh : e.shape = some sh) (r : ray_t α) (t_min t_max : α) :
    e.intersects sq r t_min t_max =
      (let pr := e.transform.apply_inverse_ray sq r
       Option.map (fun tn => (tn.1 / pr.2, e.transform.apply_normal sq tn.2))
         (sh.intersects pr.1 (t_min * pr.2) (t_max * pr.2))) := by
  simp only [element_t.intersects, hsh]
  cases h : sh.intersects (e.transform.apply_inverse_ray sq r).1
      (t_min * (e.transform.apply_inverse_ray sq r).2)
      (t_max * (e.transform.apply_inverse_ray sq r).2) with
  | none => rfl
  | some tn => cases tn; rfl

/-- Witness for C8 at a concrete element whose shape reports no hits. -/
theorem element_intersects_space_conversion_witness :
    ((⟨some ⟨fun _ _ _ => none, aabb_reset⟩, ⟨1, 1⟩, element_default.shader⟩ :
        element_t ℚ).shape = some ⟨fun _ _ _ => none, aabb_reset⟩) ∧
    ((⟨some ⟨fun _ _ _ => none, aabb_reset⟩, ⟨1, 1⟩, element_default.shader⟩ :
        element_t ℚ).intersects (fun x => x) ⟨![0,0,0], ![1,0,0]⟩ 0 1 = none) := by
  refine ⟨rfl, ?_⟩
  rw [element_intersects_space_conversion (fun x => x) _
    ⟨fun _ _ _ => none, aabb_reset⟩ rfl ⟨![0,0,0], ![1,0,0]⟩ 0 1]
  rfl

/-! ## C2: the cached transform inverse -/

set_option maxHeartbeats 1000000 in
/-- C2: the claim states that after every mutating operation `H_inv` equals
the inverse of `H`.  The code violates this in `set_rotation`, which updates
`H` but never recomputes `H_inv`.  Starting from a reset (identity) transform
and applying `set_rotation(90, 0, 0)` (a 90-degree rotation about x, using
the exact `sqrt`/`sin`/`cos`/`pi`), the stale `H_inv` is the identity while
`H⁻¹` is the inverse rotation, so the two desynchronize. -/
theorem transform_set_rotation_desyncs_inverse :
    (transform_t.set_rotation Real.sqrt Real.sin Real.cos Real.pi
        (transform_t.reset ⟨1,1⟩) 90 0 0).H_inv ≠
      ((transform_t.set_rotation Real.sqrt Real.sin Real.cos Real.pi
        (transform_t.reset ⟨1,1⟩) 90 0 0).H)⁻¹ := by
  have hpi : (0:ℝ) < Real.pi / 2 := by linarith [Real.pi_pos]
  have h90 : (90:ℝ) * Real.pi / 180 = Real.pi / 2 := by ring
  have h0 : (0:ℝ) * Real.pi / 180 = 0 := by ring
  have hmag : Real.sqrt (dot3 (![Real.pi / 2, 0, 0] : V3 ℝ) ![Real.pi / 2, 0, 0])
      = Real.pi / 2 := by
    have hd : dot3 (![Real.pi / 2, 0, 0] : V3 ℝ) ![Real.pi / 2, 0, 0]
        = (Real.pi/2) * (Real.pi/2) := by norm_num [dot3]
    rw [hd, Real.sqrt_mul_self (le_of_lt hpi)]
  have hH : (transform_t.set_rotation Real.sqrt Real.sin Real.cos Real.pi
      (transform_t.reset ⟨1,1⟩) 90 0 0).H =
      !![1,0,0,0; 0,0,-1,0; 0,1,0,0; 0,0,0,1] := by
    have hr : (![(Real.pi/2) / (Real.pi/2), (0:ℝ) / (Real.pi/2), (0:ℝ) / (Real.pi/2)] : V3 ℝ)
        = ![1,0,0] := by
      funext i; fin_cases i <;> norm_num [div_self (ne_of_gt hpi)]
    simp only [transform_t.set_rotation, transform_t.reset, h90, h0, hmag,
      Matrix.cons_val_zero, Matrix.cons_val_one, Matrix.cons_val_two,
      Matrix.head_cons, Matrix.tail_cons, hr]
    ext i j
    fin_cases i <;> fin_cases j <;>
      · simp only [Matrix.add_apply, Matrix.sub_apply, Matrix.smul_apply,
          Matrix.vecMulVec_apply, Matrix.mul_apply, Fin.sum_univ_three,
          Matrix.cons_val', Matrix.cons_val_zero, Matrix.cons_val_one,
          Matrix.cons_val_two, Matrix.head_cons, Matrix.tail_cons,
          Matrix.empty_val', Matrix.cons_val_fin_one, Matrix.head_fin_const,
          Matrix.of_apply, smul_eq_mul, Real.sin_pi_div_two, Real.cos_pi_div_two]
        norm_num [div_self (ne_of_gt hpi)]
  have hHinv : (transform_t.set_rotation Real.sqrt Real.sin Real.cos Real.pi
      (transform_t.reset ⟨1,1⟩) 90 0 0).H_inv = 1 := rfl
  rw [hHinv, hH]
  have hB : (!![1,0,0,0; 0,0,-1,0; 0,1,0,0; 0,0,0,1] : Matrix (Fin 4) (Fin 4) ℝ)⁻¹
      = !![1,0,0,0; 0,0,1,0; 0,-1,0,0; 0,0,0,1] := by
    apply Matrix.inv_eq_right_inv
    ext i j
    fin_cases i <;> fin_cases j <;>
      simp [Matrix.mul_apply, Fin.sum_univ_four, Matrix.one_apply,
        Matrix.vecHead, Matrix.vecTail, Function.comp]
  rw [hB]
  intro hcontra
  have h12 := congrFun (congrFun hcontra 1) 2
  simp [Matrix.one_apply] at h12

/-! ## BVH build (tree/aabb_node.h, aabb_node.cpp, aabb_tree.h, aabb_tree.cpp) -/

/-- `aabb_node_t`: a leaf holds an element index (`-1` for the empty node
produced by `init` on zero leaves) and bounds; an internal node holds bounds
plus exactly two children (the source invariant: the two child pointers are
either both null or both non-null). -/
inductive aabb_node_t (α : Type*) where
  | leaf (index : ℤ) (bounds : aabb_t α)
  | node (bounds : aabb_t α) (c0 c1 : aabb_node_t α)

/-- The bounds stored at a node. -/
def aabb_node_t.bounds {α : Type*} : aabb_node_t α → aabb_t α
  | .leaf _ b => b
  | .node b _ _ => b

/-- The `dim_to_split` scan of `aabb_node_t::init`: starting from
`(dim_size, dim) = (0, 0)`, take each axis whose midpoint span strictly
exceeds the best so far. -/
def split_dim_fold (b : aabb_t α) : α × Fin 3 :=
  ([0, 1, 2] : List (Fin 3)).foldl
    (fun acc d => if b.hi d - b.lo d > acc.1 then (b.hi d - b.lo d, d) else acc)
    (0, 0)

/-- The axis chosen by the `dim_to_split` scan. -/
def split_dim (b : aabb_t α) : Fin 3 := (split_dim_fold b).2

/-- One step of the leaf partition in `aabb_node_t::init`: a midpoint strictly
below the pivot goes left, strictly above goes right, and a midpoint exactly
on the pivot goes to whichever side currently has fewer leaves (the right
side when tied). -/
def partition_step (dim : Fin 3) (pivot : α)
    (acc : List (ℤ × aabb_t α) × List (ℤ × aabb_t α)) (p : ℤ × aabb_t α) :
    List (ℤ × aabb_t α) × List (ℤ × aabb_t α) :=
  let m := p.2.center dim
  if m < pivot then (acc.1 ++ [p], acc.2)
  else if m > pivot then (acc.1, acc.2 ++ [p])
  else if acc.1.length < acc.2.length then (acc.1 ++ [p], acc.2)
  else (acc.1, acc.2 ++ [p])

/-- The left/right leaf partition of `aabb_node_t::init`. -/
def partition_leaves (dim : Fin 3) (pivot : α) (L : List (ℤ × aabb_t α)) :
    List (ℤ × aabb_t α) × List (ℤ × aabb_t α) :=
  L.foldl (partition_step dim pivot) ([], [])

/-- The `this->bounds` accumulation of `aabb_node_t::init`: expand an invalid
box by every leaf box. -/
def bounds_union (L : List (ℤ × aabb_t α)) : aabb_t α :=
  L.foldl (fun b p => b.expand_box p.2) aabb_reset

/-- The `midpoints` box of `aabb_node_t::init`: expand an invalid box by the
midpoint of every leaf box. -/
def midpoints_box (L : List (ℤ × aabb_t α)) : aabb_t α :=
  L.foldl (fun b p => b.expand_pt (fun d => p.2.center d)) aabb_reset

theorem partition_foldl_length (dim : Fin 3) (pivot : α)
    (L : List (ℤ × aabb_t α)) :
    ∀ acc, (L.foldl (partition_step dim pivot) acc).1.length
        + (L.foldl (partition_step dim pivot) acc).2.length
      = acc.1.length + acc.2.length + L.length := by
  induction L with
  | nil => intro acc; simp
  | cons p L ih =>
    intro acc
    rw [List.foldl_cons, ih]
    simp only [partition_step]
    split_ifs <;> simp <;> omega

theorem partition_foldl_grow (dim : Fin 3) (pivot : α)
    (L : List (ℤ × aabb_t α)) :
    ∀ acc, acc.1.length ≤ (L.foldl (partition_step dim pivot) acc).1.length
      ∧ acc.2.length ≤ (L.foldl (partition_step dim pivot) acc).2.length := by
  induction L with
  | nil => intro acc; simp
  | cons p L ih =>
    intro acc
    refine ⟨le_trans ?_ (ih _).1, le_trans ?_ (ih _).2⟩ <;>
      · simp only [partition_step]
        split_ifs <;> simp

theorem expand_pt_le (b : aabb_t α) (v : V3 α) (d : Fin 3) :
    (b.expand_pt v).lo d ≤ v d ∧ v d ≤ (b.expand_pt v).hi d := by
  simp only [aabb_t.expand_pt]
  split_ifs <;> constructor <;> simp [min_le_right, le_max_right]

theorem expand_pt_inside (b : aabb_t α) (v : V3 α) (x : α) (d : Fin 3)
    (h : b.lo d ≤ x ∧ x ≤ b.hi d) :
    (b.expand_pt v).lo d ≤ x ∧ x ≤ (b.expand_pt v).hi d := by
  simp only [aabb_t.expand_pt]
  have hvalid : ¬ (b.hi d < b.lo d) := not_lt.2 (le_trans h.1 h.2)
  constructor <;> simp only [hvalid, if_false]
  · exact le_trans (min_le_left _ _) h.1
  · exact le_trans h.2 (le_max_left _ _)

theorem midpoints_box_fold_inside (L : List (ℤ × aabb_t α)) :
    ∀ (b : aabb_t α) (x : α) (d : Fin 3), b.lo d ≤ x → x ≤ b.hi d →
      (L.foldl (fun bx p => bx.expand_pt (fun j => p.2.center j)) b).lo d ≤ x
      ∧ x ≤ (L.foldl (fun bx p => bx.expand_pt (fun j => p.2.center j)) b).hi d := by
  induction L with
  | nil => intro b x d h1 h2; exact ⟨h1, h2⟩
  | cons p L ih =>
    intro b x d h1 h2
    rw [List.foldl_cons]
    have := expand_pt_inside b (fun j => p.2.center j) x d ⟨h1, h2⟩
    exact ih _ x d this.1 this.2

theorem midpoints_box_fold_mem (L : List (ℤ × aabb_t α)) :
    ∀ (b : aabb_t α) (p : ℤ × aabb_t α), p ∈ L → ∀ (d : Fin 3),
      (L.foldl (fun bx q => bx.expand_pt (fun j => q.2.center j)) b).lo d ≤ p.2.center d
      ∧ p.2.center d ≤ (L.foldl (fun bx q => bx.expand_pt (fun j => q.2.center j)) b).hi d := by
  induction L with
  | nil => intro b p hp; cases hp
  | cons q L ih =>
    intro b p hp d
    rw [List.foldl_cons]
    rcases List.mem_cons.1 hp with rfl | hmem
    · have h := expand_pt_le b (fun j => p.2.center j) d
      exact midpoints_box_fold_inside L _ _ d h.1 h.2
    · exact ih _ p hmem d

theorem midpoints_box_mem (L : List (ℤ × aabb_t α)) (p : ℤ × aabb_t α)
    (hp : p ∈ L) (d : Fin 3) :
    (midpoints_box L).lo d ≤ p.2.center d ∧ p.2.center d ≤ (midpoints_box L).hi d :=
  midpoints_box_fold_mem L aabb_reset p hp d

theorem midpoints_box_fold_attain_lo (L : List (ℤ × aabb_t α)) :
    ∀ (b : aabb_t α) (d : Fin 3),
      (∃ p ∈ L, (L.foldl (fun bx q => bx.expand_pt (fun j => q.2.center j)) b).lo d
          = p.2.center d)
      ∨ ((L.foldl (fun bx q => bx.expand_pt (fun j => q.2.center j)) b).lo d = b.lo d
          ∧ ¬ (b.hi d < b.lo d)) ∨ L = [] := by
  induction L with
  | nil => intro b d; right; right; rfl
  | cons q L ih =>
    intro b d
    rw [List.foldl_cons]
    rcases ih (b.expand_pt (fun j => q.2.center j)) d with ⟨p, hpL, hp⟩ | ⟨heq, hvalid⟩ | hnil
    · exact Or.inl ⟨p, List.mem_cons_of_mem _ hpL, hp⟩
    · by_cases hb : b.hi d < b.lo d
      · left
        refine ⟨q, List.mem_cons_self _ _, ?_⟩
        rw [heq]
        simp [aabb_t.expand_pt, hb]
      · have hexp : (b.expand_pt (fun j => q.2.center j)).lo d
            = min (b.lo d) (q.2.center d) := by
          simp [aabb_t.expand_pt, hb]
        rcases le_total (b.lo d) (q.2.center d) with hle | hle
        · right; left
          exact ⟨by rw [heq, hexp, min_eq_left hle], hb⟩
        · left
          exact ⟨q, List.mem_cons_self _ _, by rw [heq, hexp, min_eq_right hle]⟩
    · subst hnil
      simp only [List.foldl_nil]
      by_cases hb : b.hi d < b.lo d
      · left
        refine ⟨q, List.mem_cons_self _ _, ?_⟩
        simp [aabb_t.expand_pt, hb]
      · have hexp : (b.expand_pt (fun j => q.2.center j)).lo d
            = min (b.lo d) (q.2.center d) := by
          simp [aabb_t.expand_pt, hb]
        rcases le_total (b.lo d) (q.2.center d) with hle | hle
        · right; left
          exact ⟨by rw [hexp, min_eq_left hle], hb⟩
        · left
          exact ⟨q, List.mem_cons_self _ _, by rw [hexp, min_eq_right hle]⟩


theorem midpoints_box_fold_attain_hi (L : List (ℤ × aabb_t α)) :
    ∀ (b : aabb_t α) (d : Fin 3),
      (∃ p ∈ L, (L.foldl (fun bx q => bx.expand_pt (fun j => q.2.center j)) b).hi d
          = p.2.center d)
      ∨ ((L.foldl (fun bx q => bx.expand_pt (fun j => q.2.center j)) b).hi d = b.hi d
          ∧ ¬ (b.hi d < b.lo d)) ∨ L = [] := by
  induction L with
  | nil => intro b d; right; right; rfl
  | cons q L ih =>
    intro b d
    rw [List.foldl_cons]
    rcases ih (b.expand_pt (fun j => q.2.center j)) d with ⟨p, hpL, hp⟩ | ⟨heq, hvalid⟩ | hnil
    · exact Or.inl ⟨p, List.mem_cons_of_mem _ hpL, hp⟩
    · by_cases hb : b.hi d < b.lo d
      · left
        refine ⟨q, List.mem_cons_self _ _, ?_⟩
        rw [heq]
        simp [aabb_t.expand_pt, hb]
      · have hexp : (b.expand_pt (fun j => q.2.center j)).hi d
            = max (b.hi d) (q.2.center d) := by
          simp [aabb_t.expand_pt, hb]
        rcases le_total (q.2.center d) (b.hi d) with hle | hle
        · right; left
          exact ⟨by rw [heq, hexp, max_eq_left hle], hb⟩
        · left
          exact ⟨q, List.mem_cons_self _ _, by rw [heq, hexp, max_eq_right hle]⟩
    · subst hnil
      simp only [List.foldl_nil]
      by_cases hb : b.hi d < b.lo d
      · left
        refine ⟨q, List.mem_cons_self _ _, ?_⟩
        simp [aabb_t.expand_pt, hb]
      · have hexp : (b.expand_pt (fun j => q.2.center j)).hi d
            = max (b.hi d) (q.2.center d) := by
          simp [aabb_t.expand_pt, hb]
        rcases le_total (q.2.center d) (b.hi d) with hle | hle
        · right; left
          exact ⟨by rw [hexp, max_eq_left hle], hb⟩
        · left
          exact ⟨q, List.mem_cons_self _ _, by rw [hexp, max_eq_right hle]⟩

theorem midpoints_box_attain (L : List (ℤ × aabb_t α)) (hL : L ≠ []) (d : Fin 3) :
    (∃ p ∈ L, (midpoints_box L).lo d = p.2.center d)
    ∧ (∃ p ∈ L, (midpoints_box L).hi d = p.2.center d) := by
  constructor
  · rcases midpoints_box_fold_attain_lo L aabb_reset d with h | ⟨_, hvalid⟩ | hnil
    · exact h
    · exact absurd (by fin_cases d <;> norm_num [aabb_reset] :
        (aabb_reset : aabb_t α).hi d < aabb_reset.lo d) hvalid
    · exact absurd hnil hL
  · rcases midpoints_box_fold_attain_hi L aabb_reset d with h | ⟨_, hvalid⟩ | hnil
    · exact h
    · exact absurd (by fin_cases d <;> norm_num [aabb_reset] :
        (aabb_reset : aabb_t α).hi d < aabb_reset.lo d) hvalid
    · exact absurd hnil hL

theorem split_dim_fold_spec (b : aabb_t α) :
    (0 < (split_dim_fold b).1
      ∧ (split_dim_fold b).1 = b.hi (split_dim_fold b).2 - b.lo (split_dim_fold b).2)
    ∨ ((split_dim_fold b).1 = 0 ∧ ∀ d : Fin 3, b.hi d - b.lo d ≤ 0) := by
  simp only [split_dim_fold, List.foldl]
  split_ifs <;> dsimp only at * <;>
    first
      | exact Or.inl ⟨by linarith, rfl⟩
      | (refine Or.inr ⟨rfl, ?_⟩; intro d; fin_cases d
         · show b.hi 0 - b.lo 0 ≤ 0; linarith
         · show b.hi 1 - b.lo 1 ≤ 0; linarith
         · show b.hi 2 - b.lo 2 ≤ 0; linarith)

theorem partition_foldl_mem_left (dim : Fin 3) (pivot : α)
    (L : List (ℤ × aabb_t α)) :
    ∀ acc (q : ℤ × aabb_t α), q ∈ acc.1 →
      q ∈ (L.foldl (partition_step dim pivot) acc).1 := by
  induction L with
  | nil => intro acc q hq; exact hq
  | cons p L ih =>
    intro acc q hq
    rw [List.foldl_cons]
    refine ih _ q ?_
    simp only [partition_step]
    split_ifs <;> simp [hq]

theorem partition_foldl_mem_right (dim : Fin 3) (pivot : α)
    (L : List (ℤ × aabb_t α)) :
    ∀ acc (q : ℤ × aabb_t α), q ∈ acc.2 →
      q ∈ (L.foldl (partition_step dim pivot) acc).2 := by
  induction L with
  | nil => intro acc q hq; exact hq
  | cons p L ih =>
    intro acc q hq
    rw [List.foldl_cons]
    refine ih _ q ?_
    simp only [partition_step]
    split_ifs <;> simp [hq]

theorem partition_foldl_mem_lt (dim : Fin 3) (pivot : α)
    (L : List (ℤ × aabb_t α)) :
    ∀ acc (p : ℤ × aabb_t α), p ∈ L → p.2.center dim < pivot →
      p ∈ (L.foldl (partition_step dim pivot) acc).1 := by
  induction L with
  | nil => intro acc p hp; cases hp
  | cons q L ih =>
    intro acc p hp hm
    rw [List.foldl_cons]
    rcases List.mem_cons.1 hp with rfl | hmem
    · refine partition_foldl_mem_left dim pivot L _ p ?_
      simp only [partition_step, if_pos hm]
      exact List.mem_append_right _ (List.mem_singleton_self p)
    · exact ih _ p hmem hm

theorem partition_foldl_mem_gt (dim : Fin 3) (pivot : α)
    (L : List (ℤ × aabb_t α)) :
    ∀ acc (p : ℤ × aabb_t α), p ∈ L → pivot < p.2.center dim →
      p ∈ (L.foldl (partition_step dim pivot) acc).2 := by
  induction L with
  | nil => intro acc p hp; cases hp
  | cons q L ih =>
    intro acc p hp hm
    rw [List.foldl_cons]
    rcases List.mem_cons.1 hp with rfl | hmem
    · refine partition_foldl_mem_right dim pivot L _ p ?_
      simp only [partition_step, if_neg (not_lt.2 (le_of_lt hm)), if_pos hm]
      exact List.mem_append_right _ (List.mem_singleton_self p)
    · exact ih _ p hmem hm

theorem partition_nontrivial (L : List (ℤ × aabb_t α)) (hL : 2 ≤ L.length) :
    0 < (partition_leaves (split_dim (midpoints_box L))
          ((midpoints_box L).center (split_dim (midpoints_box L))) L).1.length
    ∧ 0 < (partition_leaves (split_dim (midpoints_box L))
          ((midpoints_box L).center (split_dim (midpoints_box L))) L).2.length := by
  have hL0 : L ≠ [] := by
    intro h; subst h; simp at hL
  rcases split_dim_fold_spec (midpoints_box L) with ⟨hpos, hspan⟩ | ⟨hzero, hall⟩
  · have hlt : (midpoints_box L).lo (split_dim (midpoints_box L))
        < (midpoints_box L).hi (split_dim (midpoints_box L)) := by
      unfold split_dim; linarith
    obtain ⟨⟨pl, hplL, hpl⟩, ⟨ph, hphL, hph⟩⟩ :=
      midpoints_box_attain L hL0 (split_dim (midpoints_box L))
    have hpll : pl.2.center (split_dim (midpoints_box L))
        < (midpoints_box L).center (split_dim (midpoints_box L)) :=
      calc pl.2.center (split_dim (midpoints_box L))
          = (midpoints_box L).lo (split_dim (midpoints_box L)) := hpl.symm
        _ < (midpoints_box L).center (split_dim (midpoints_box L)) := by
            unfold aabb_t.center; linarith
    have hphh : (midpoints_box L).center (split_dim (midpoints_box L))
        < ph.2.center (split_dim (midpoints_box L)) :=
      calc (midpoints_box L).center (split_dim (midpoints_box L))
          < (midpoints_box L).hi (split_dim (midpoints_box L)) := by
            unfold aabb_t.center; linarith
        _ = ph.2.center (split_dim (midpoints_box L)) := hph
    constructor
    · exact List.length_pos_of_mem
        (partition_foldl_mem_lt _ _ L ([], []) pl hplL hpll)
    · exact List.length_pos_of_mem
        (partition_foldl_mem_gt _ _ L ([], []) ph hphL hphh)
  · have hallc : ∀ p ∈ L, p.2.center (split_dim (midpoints_box L))
        = (midpoints_box L).center (split_dim (midpoints_box L)) := by
      intro p hp
      have h := midpoints_box_mem L p hp (split_dim (midpoints_box L))
      have hd0 := hall (split_dim (midpoints_box L))
      show p.2.center (split_dim (midpoints_box L))
        = ((midpoints_box L).lo (split_dim (midpoints_box L))
          + (midpoints_box L).hi (split_dim (midpoints_box L))) / 2
      linarith [h.1, h.2]
    obtain ⟨a, b, rest, rfl⟩ : ∃ a b rest, L = a :: b :: rest := by
      match L, hL with
      | a :: b :: rest, _ => exact ⟨a, b, rest, rfl⟩
    have ha := hallc a (by simp)
    have hb := hallc b (by simp)
    unfold partition_leaves
    rw [List.foldl_cons, List.foldl_cons]
    have hstep1 : partition_step (split_dim (midpoints_box (a :: b :: rest)))
        ((midpoints_box (a :: b :: rest)).center (split_dim (midpoints_box (a :: b :: rest))))
        ([], []) a = ([], [a]) := by
      simp [partition_step, ha, lt_irrefl]
    have hstep2 : partition_step (split_dim (midpoints_box (a :: b :: rest)))
        ((midpoints_box (a :: b :: rest)).center (split_dim (midpoints_box (a :: b :: rest))))
        ([], [a]) b = ([b], [a]) := by
      simp [partition_step, hb, lt_irrefl]
    rw [hstep1, hstep2]
    have hg := partition_foldl_grow (split_dim (midpoints_box (a :: b :: rest)))
        ((midpoints_box (a :: b :: rest)).center (split_dim (midpoints_box (a :: b :: rest))))
        rest ([b], [a])
    exact ⟨lt_of_lt_of_le (by norm_num) hg.1, lt_of_lt_of_le (by norm_num) hg.2⟩

theorem partition_lengths_lt (L : List (ℤ × aabb_t α)) (hL : 3 ≤ L.length) :
    (partition_leaves (split_dim (midpoints_box L))
        ((midpoints_box L).center (split_dim (midpoints_box L))) L).1.length < L.length
    ∧ (partition_leaves (split_dim (midpoints_box L))
        ((midpoints_box L).center (split_dim (midpoints_box L))) L).2.length < L.length := by
  have hnt := partition_nontrivial L (le_trans (by norm_num) hL)
  have hsum := partition_foldl_length (split_dim (midpoints_box L))
      ((midpoints_box L).center (split_dim (midpoints_box L))) L ([], [])
  unfold partition_leaves at hnt ⊢
  simp only [List.length_nil] at hsum
  omega

/-- `aabb_node_t::init(leaf_nodes)` (tree/aabb_node.cpp): 0 leaves leave the
cleared node (index `-1`, reset bounds); 1 leaf turns the node into that
leaf; 2 leaves become direct children; otherwise compute the union bounds and
the midpoints box, split on the largest-span axis at the midpoint-box center,
partition, and recurse. -/
def node_init : List (ℤ × aabb_t α) → aabb_node_t α
  | [] => .leaf (-1) aabb_reset
  | [p] => .leaf p.1 p.2
  | [p, q] => .node ((aabb_reset.expand_box p.2).expand_box q.2)
      (.leaf p.1 p.2) (.leaf q.1 q.2)
  | x :: y :: z :: rest =>
    let L := x :: y :: z :: rest
    let pr := partition_leaves (split_dim (midpoints_box L))
        ((midpoints_box L).center (split_dim (midpoints_box L))) L
    .node (bounds_union L) (node_init pr.1) (node_init pr.2)
termination_by L => L.length
decreasing_by
  · exact (partition_lengths_lt (x :: y :: z :: rest) (by simp)).1
  · exact (partition_lengths_lt (x :: y :: z :: rest) (by simp)).2

/-- `aabb_tree_t::init` (tree/aabb_tree.cpp): a leaf for every element with a
non-null shape, with bounds the shape's local bounds transformed to world
space by the element transform. -/
def tree_leaf_list (elems : List (element_t α)) : List (ℤ × aabb_t α) :=
  (List.range elems.length).filterMap fun i =>
    match (elems.getD i element_default).shape with
    | none => none
    | some sh => some ((i : ℤ),
        sh.get_bounds.apply (elems.getD i element_default).transform)

/-- The tree built by `aabb_tree_t::init`: the root node over the leaves. -/
def tree_init (elems : List (element_t α)) : aabb_node_t α :=
  node_init (tree_leaf_list elems)

/-- `aabb_node_t::trace` (tree/aabb_node.cpp) on the state
`(i_best, t_best, n_best)`: shortcircuit returns early once any hit exists;
a leaf with a valid index queries its element over `[t_min, t_max]` and
records strictly closer hits; an internal node tests both child boxes
against `[t_min, t_max]`, cares only about children whose entry `t` is below
the current best, descends into the nearer entry first, and skips the
farther child when the best is already closer than its entry. -/
def node_trace (sq : α → α) (elems : List (element_t α)) (r : ray_t α)
    (sc : Bool) (t_min t_max : α) :
    aabb_node_t α → ℕ × α × V3 α → ℕ × α × V3 α
  | nd, st =>
    if sc ∧ st.1 < elems.length then st
    else
      match nd with
      | .leaf idx _ =>
        if idx < 0 then st
        else
          match (elems.getD idx.toNat element_default).intersects sq r t_min t_max with
          | none => st
          | some (t, n) => if t < st.2.1 then (idx.toNat, t, n) else st
      | .node _ c0 c1 =>
        let q0 := match c0.bounds.intersects r t_min t_max with
          | none => none
          | some (t, _) => if t < st.2.1 then some t else none
        let q1 := match c1.bounds.intersects r t_min t_max with
          | none => none
          | some (t, _) => if t < st.2.1 then some t else none
        match q0, q1 with
        | some e0, some e1 =>
          if e0 < e1 then
            let st1 := node_trace sq elems r sc t_min t_max c0 st
            if st1.2.1 < e1 then st1 else node_trace sq elems r sc t_min t_max c1 st1
          else
            let st1 := node_trace sq elems r sc t_min t_max c1 st
            if st1.2.1 < e0 then st1 else node_trace sq elems r sc t_min t_max c0 st1
        | some _, none => node_trace sq elems r sc t_min t_max c0 st
        | none, some _ => node_trace sq elems r sc t_min t_max c1 st
        | none, none => st

/-- `aabb_tree_t::trace` (tree/aabb_tree.cpp) on the tree built from the
elements: initialize `i_best = elements.size()` (the no-hit marker) and
`t_best = t_max`, then search the root.  The uninitialized `n_best` is
modelled as the zero vector (identically in `brute_force_search`). -/
def tree_trace (sq : α → α) (elems : List (element_t α)) (r : ray_t α)
    (sc : Bool) (t_min t_max : α) : ℕ × α × V3 α :=
  node_trace sq elems r sc t_min t_max (tree_init elems)
    (elems.length, t_max, fun _ => 0)

/-- `scene_t::brute_force_search` (scene.cpp): linear scan with the running
best as the upper range bound; every hit is recorded unconditionally, and
with `shortcircuit` the scan stops at the first hit. -/
def brute_force_search (sq : α → α) (elems : List (element_t α)) (r : ray_t α)
    (sc : Bool) (t_min t_max : α) : ℕ × α × V3 α :=
  (List.range elems.length).foldl
    (fun st i =>
      if sc ∧ st.1 ≠ elems.length then st
      else
        match (elems.getD i element_default).intersects sq r t_min st.2.1 with
        | none => st
        | some (t, n) => (i, t, n))
    (elems.length, t_max, fun _ => 0)

/-- C10: an element with a null shape pointer reports no intersection for
every ray and range, and the BVH build (`aabb_tree_t::init`) creates no leaf
for it, so null-shape elements never contribute a hit or a shadow. -/
theorem null_shape_elements_never_hit (sq : α → α) :
    (∀ (e : element_t α) (r : ray_t α) (t_min t_max : α), e.shape = none →
        e.intersects sq r t_min t_max = none)
    ∧ (∀ (elems : List (element_t α)) (i : ℕ), i < elems.length →
        (elems.getD i element_default).shape = none →
        (i : ℤ) ∉ (tree_leaf_list elems).map Prod.fst) := by
  constructor
  · intro e r t_min t_max h
    simp only [element_t.intersects, h]
  · intro elems i hi hnone hmem
    simp only [tree_leaf_list, List.mem_map, List.mem_filterMap,
      List.mem_range] at hmem
    obtain ⟨p, ⟨j, hj, hmatch⟩, hfst⟩ := hmem
    rcases hsh : (elems.getD j element_default).shape with _ | sh
    · rw [hsh] at hmatch; cases hmatch
    · rw [hsh] at hmatch
      simp only [Option.some.injEq] at hmatch
      subst hmatch
      simp only at hfst
      have : j = i := by exact_mod_cast hfst
      subst this
      rw [hsh] at hnone
      cases hnone

/-- C4: BVH build base cases and the partition rule.  `init` on 0 leaves is
the empty node (`index = -1`), on 1 leaf that leaf, on 2 leaves an internal
node with the two leaves as direct children; with 3 or more leaves it splits
into recursively built children of the left/right partition, where a leaf
with midpoint strictly below the pivot goes left, strictly above goes right,
and a leaf exactly on the pivot goes to whichever side currently holds fewer
leaves (to the right on a tie). -/
theorem node_init_build_spec :
    (node_init ([] : List (ℤ × aabb_t α)) = .leaf (-1) aabb_reset)
    ∧ (∀ p : ℤ × aabb_t α, node_init [p] = .leaf p.1 p.2)
    ∧ (∀ p q : ℤ × aabb_t α, node_init [p, q]
        = .node ((aabb_reset.expand_box p.2).expand_box q.2)
            (.leaf p.1 p.2) (.leaf q.1 q.2))
    ∧ (∀ (L : List (ℤ × aabb_t α)), 3 ≤ L.length →
        node_init L = .node (bounds_union L)
          (node_init (partition_leaves (split_dim (midpoints_box L))
            ((midpoints_box L).center (split_dim (midpoints_box L))) L).1)
          (node_init (partition_leaves (split_dim (midpoints_box L))
            ((midpoints_box L).center (split_dim (midpoints_box L))) L).2))
    ∧ (∀ (L : List (ℤ × aabb_t α)) (dim : Fin 3) (pivot : α)
        (p : ℤ × aabb_t α), p ∈ L →
        (p.2.center dim < pivot → p ∈ (partition_leaves dim pivot L).1)
        ∧ (pivot < p.2.center dim → p ∈ (partition_leaves dim pivot L).2))
    ∧ (∀ (dim : Fin 3) (pivot : α)
        (acc : List (ℤ × aabb_t α) × List (ℤ × aabb_t α)) (p : ℤ × aabb_t α),
        p.2.center dim = pivot →
        partition_step dim pivot acc p
          = if acc.1.length < acc.2.length
            then (acc.1 ++ [p], acc.2) else (acc.1, acc.2 ++ [p])) := by
  refine ⟨by rw [node_init], fun p => by rw [node_init], fun p q => by rw [node_init], ?_, ?_, ?_⟩
  · intro L hL
    obtain ⟨x, y, z, rest, rfl⟩ : ∃ x y z rest, L = x :: y :: z :: rest := by
      match L, hL with
      | x :: y :: z :: rest, _ => exact ⟨x, y, z, rest, rfl⟩
    rw [node_init]
  · intro L dim pivot p hp
    exact ⟨partition_foldl_mem_lt dim pivot L ([], []) p hp,
      partition_foldl_mem_gt dim pivot L ([], []) p hp⟩
  · intro dim pivot acc p hm
    simp only [partition_step, hm, lt_irrefl, if_false]

/-- Witness for C10 at the default (null-shape) element. -/
theorem null_shape_elements_never_hit_witness :
    ((element_default : element_t ℚ).shape = none)
    ∧ ((element_default : element_t ℚ).intersects (fun x => x)
        ⟨![0,0,0], ![1,0,0]⟩ 0 1 = none)
    ∧ (0 < ([element_default] : List (element_t ℚ)).length)
    ∧ ((0:ℤ) ∉ (tree_leaf_list ([element_default] :
        List (element_t ℚ))).map Prod.fst) :=
  ⟨rfl, (null_shape_elements_never_hit (fun x => x)).1 _ _ _ _ rfl, by norm_num,
    (null_shape_elements_never_hit (fun x => x)).2 [element_default] 0 (by norm_num) rfl⟩

/-- A degenerate (point) leaf box at `x` on the first axis, for witnesses. -/
def wbox (x : ℚ) : aabb_t ℚ := ⟨![x,0,0], ![x,0,0]⟩

/-- A three-leaf list with midpoints 0, 2, 4 on the first axis. -/
def wlist : List (ℤ × aabb_t ℚ) := [(0, wbox 0), (1, wbox 2), (2, wbox 4)]

/-- Witness for C4: three point-leaves at 0, 2, 4 on the x-axis (pivot 2). -/
theorem node_init_build_spec_witness :
    3 ≤ wlist.length
    ∧ (node_init wlist = .node (bounds_union wlist)
        (node_init (partition_leaves (split_dim (midpoints_box wlist))
          ((midpoints_box wlist).center (split_dim (midpoints_box wlist))) wlist).1)
        (node_init (partition_leaves (split_dim (midpoints_box wlist))
          ((midpoints_box wlist).center (split_dim (midpoints_box wlist))) wlist).2))
    ∧ ((wbox 0).center 0 < 2
        ∧ ((0:ℤ), wbox 0) ∈ (partition_leaves 0 2 wlist).1)
    ∧ ((wbox 2).center 0 = 2
        ∧ partition_step 0 (2:ℚ) (([], []) :
            List (ℤ × aabb_t ℚ) × List (ℤ × aabb_t ℚ)) (1, wbox 2)
          = ([], [(1, wbox 2)])) := by
  have hc0 : (wbox 0).center 0 < 2 := by norm_num [aabb_t.center, wbox]
  have hc1 : (wbox 2).center 0 = 2 := by norm_num [aabb_t.center, wbox]
  refine ⟨by norm_num [wlist], node_init_build_spec.2.2.2.1 _ (by norm_num [wlist]),
    ⟨hc0, ?_⟩, ⟨hc1, ?_⟩⟩
  · exact (node_init_build_spec.2.2.2.2.1 wlist 0 2 _ (by norm_num [wlist])).1 hc0
  · rw [node_init_build_spec.2.2.2.2.2 0 2 ([], []) _ hc1]
    norm_num

/-- The per-axis slab entry value of `aabb_t::intersects`. -/
def slab_e (b : aabb_t α) (r : ray_t α) (i : Fin 3) : α :=
  ((if 1 / r.direction i < 0 then b.hi i else b.lo i) - r.origin i)
    * (1 / r.direction i)

/-- The per-axis slab exit value of `aabb_t::intersects`. -/
def slab_x (b : aabb_t α) (r : ray_t α) (i : Fin 3) : α :=
  ((if 1 / r.direction i < 0 then b.lo i else b.hi i) - r.origin i)
    * (1 / r.direction i)

/-- The overall slab entry `E = max(e0, e1, e2)`. -/
def slab_E (b : aabb_t α) (r : ray_t α) : α :=
  max (max (slab_e b r 0) (slab_e b r 1)) (slab_e b r 2)

/-- The overall slab exit `X = min(x0, x1, x2)`. -/
def slab_X (b : aabb_t α) (r : ray_t α) : α :=
  min (min (slab_x b r 0) (slab_x b r 1)) (slab_x b r 2)

/-- A box is valid when `min ≤ max` on every axis. -/
def aabb_valid (b : aabb_t α) : Prop := ∀ i : Fin 3, b.lo i ≤ b.hi i

theorem slab_e_le_x (b : aabb_t α) (r : ray_t α) (hb : aabb_valid b)
    (i : Fin 3) : slab_e b r i ≤ slab_x b r i := by
  unfold slab_e slab_x
  rcases lt_trichotomy (1 / r.direction i) 0 with h | h | h
  · rw [if_pos h, if_pos h]
    have := hb i
    nlinarith
  · rw [h, mul_zero, mul_zero]
  · rw [if_neg (not_lt.2 (le_of_lt h)), if_neg (not_lt.2 (le_of_lt h))]
    have := hb i
    nlinarith

/-- The t-component of the staged slab walk, on abstract per-axis values. -/
def slab_walk (e0 e1 e2 x0 x1 x2 t_min t_max : α) : Option α :=
  if x0 < t_min ∨ e0 > t_max then none
  else if e0 > x1 ∨ e1 > x0 then none
  else
    let tmin1 := if e1 > e0 then e1 else e0
    let tmax1 := if x1 < x0 then x1 else x0
    if tmax1 < t_min ∨ tmin1 > t_max then none
    else if tmin1 > x2 ∨ e2 > tmax1 then none
    else
      let tmin2 := if e2 > tmin1 then e2 else tmin1
      let tmax2 := if x2 < tmax1 then x2 else tmax1
      if tmax2 < t_min ∨ tmin2 > t_max then none
      else if tmin2 < t_min then some t_min
      else some tmin2

theorem aabb_intersects_t_walk (b : aabb_t α) (r : ray_t α)
    (t_min t_max : α) :
    (b.intersects r t_min t_max).map Prod.fst
      = slab_walk (slab_e b r 0) (slab_e b r 1) (slab_e b r 2)
          (slab_x b r 0) (slab_x b r 1) (slab_x b r 2) t_min t_max := by
  simp only [aabb_t.intersects, slab_walk, slab_e, slab_x,
    apply_ite (Option.map (Prod.fst : α × V3 α → α)),
    Option.map_some', Option.map_none']

theorem slab_walk_char (e0 e1 e2 x0 x1 x2 t_min t_max : α)
    (h0 : e0 ≤ x0) (h1 : e1 ≤ x1) (h2 : e2 ≤ x2) :
    slab_walk e0 e1 e2 x0 x1 x2 t_min t_max
      = if max (max e0 e1) e2 ≤ min (min x0 x1) x2
          ∧ t_min ≤ min (min x0 x1) x2 ∧ max (max e0 e1) e2 ≤ t_max
        then some (max t_min (max (max e0 e1) e2)) else none := by
  have hgt : ∀ a c : α, (if c > a then c else a) = max a c := by
    intro a c
    rcases le_or_lt c a with h | h
    · rw [if_neg (not_lt.2 h), max_eq_left h]
    · rw [if_pos h, max_eq_right (le_of_lt h)]
  have hlt : ∀ a c : α, (if c < a then c else a) = min a c := by
    intro a c
    rcases le_or_lt a c with h | h
    · rw [if_neg (not_lt.2 h), min_eq_left h]
    · rw [if_pos h, min_eq_right (le_of_lt h)]
  simp only [slab_walk, hgt, hlt]
  split_ifs
  all_goals
    simp only [not_or, not_lt, not_le, not_and_or, max_le_iff, le_min_iff,
      min_lt_iff, lt_max_iff, le_max_iff, min_le_iff, lt_min_iff, max_lt_iff] at *
  all_goals
    first
      | rfl
      | (refine congrArg some ?_; symm; apply max_eq_left;
         simp only [sup_le_iff]; refine ⟨⟨?_, ?_⟩, ?_⟩ <;> linarith)
      | (refine congrArg some ?_; symm; apply max_eq_right;
         simp only [le_sup_iff] at *; tauto)
      | (exfalso; casesm* _ ∨ _, _ ∧ _ <;> linarith)

theorem aabb_intersects_t_eq (b : aabb_t α) (r : ray_t α) (t_min t_max : α)
    (hb : aabb_valid b) :
    (b.intersects r t_min t_max).map Prod.fst
      = if slab_E b r ≤ slab_X b r ∧ t_min ≤ slab_X b r ∧ slab_E b r ≤ t_max
        then some (max t_min (slab_E b r)) else none :=
  (aabb_intersects_t_walk b r t_min t_max).trans
    (slab_walk_char _ _ _ _ _ _ _ _ (slab_e_le_x b r hb 0)
      (slab_e_le_x b r hb 1) (slab_e_le_x b r hb 2))

/-- Box inclusion, axis by axis. -/
def aabb_subset (b B : aabb_t α) : Prop :=
  ∀ i : Fin 3, B.lo i ≤ b.lo i ∧ b.hi i ≤ B.hi i

theorem aabb_valid_of_subset {b B : aabb_t α} (hb : aabb_valid b)
    (hs : aabb_subset b B) : aabb_valid B := fun i =>
  le_trans (hs i).1 (le_trans (hb i) (hs i).2)

theorem slab_e_mono {b B : aabb_t α} (r : ray_t α) (hs : aabb_subset b B)
    (i : Fin 3) : slab_e B r i ≤ slab_e b r i := by
  unfold slab_e
  rcases lt_trichotomy (1 / r.direction i) 0 with h | h | h
  · simp only [if_pos h]
    have := (hs i).2
    nlinarith
  · rw [h, mul_zero, mul_zero]
  · simp only [if_neg (not_lt.2 (le_of_lt h))]
    have := (hs i).1
    nlinarith

theorem slab_x_mono {b B : aabb_t α} (r : ray_t α) (hs : aabb_subset b B)
    (i : Fin 3) : slab_x b r i ≤ slab_x B r i := by
  unfold slab_x
  rcases lt_trichotomy (1 / r.direction i) 0 with h | h | h
  · simp only [if_pos h]
    have := (hs i).1
    nlinarith
  · rw [h, mul_zero, mul_zero]
  · simp only [if_neg (not_lt.2 (le_of_lt h))]
    have := (hs i).2
    nlinarith

theorem aabb_intersects_mono {b B : aabb_t α} (r : ray_t α)
    (t_min t_max : α) (hb : aabb_valid b) (hs : aabb_subset b B)
    {t : α} {n : V3 α} (h : b.intersects r t_min t_max = some (t, n)) :
    ∃ T nn, B.intersects r t_min t_max = some (T, nn) ∧ T ≤ t := by
  have hBv := aabb_valid_of_subset hb hs
  have hEm : slab_E B r ≤ slab_E b r := by
    unfold slab_E
    exact max_le_max (max_le_max (slab_e_mono r hs 0) (slab_e_mono r hs 1))
      (slab_e_mono r hs 2)
  have hXm : slab_X b r ≤ slab_X B r := by
    unfold slab_X
    exact min_le_min (min_le_min (slab_x_mono r hs 0) (slab_x_mono r hs 1))
      (slab_x_mono r hs 2)
  have hbchar := aabb_intersects_t_eq b r t_min t_max hb
  have hBchar := aabb_intersects_t_eq B r t_min t_max hBv
  rw [h] at hbchar
  simp only [Option.map_some'] at hbchar
  split_ifs at hbchar with hc
  · obtain ⟨hEX, htX, hEt⟩ := hc
    have hcB : slab_E B r ≤ slab_X B r ∧ t_min ≤ slab_X B r
        ∧ slab_E B r ≤ t_max := ⟨by linarith, by linarith, by linarith⟩
    rw [if_pos hcB] at hBchar
    rcases Option.map_eq_some'.1 hBchar with ⟨⟨T, nn⟩, hTn, hT⟩
    refine ⟨T, nn, hTn, ?_⟩
    simp only at hT
    rw [hT, Option.some.inj hbchar]
    exact max_le_max (le_refl t_min) hEm

theorem expand_box_includes (b c : aabb_t α) : aabb_subset c (b.expand_box c) := by
  intro i
  simp only [aabb_t.expand_box]
  split_ifs with h
  · exact ⟨le_refl _, le_refl _⟩
  · exact ⟨min_le_right _ _, le_max_right _ _⟩

theorem expand_box_preserves {cp b : aabb_t α} (c : aabb_t α)
    (hv : aabb_valid cp) (hsub : aabb_subset cp b) :
    aabb_subset cp (b.expand_box c) := by
  intro i
  have hax : ¬ (b.hi i < b.lo i) :=
    not_lt.2 (le_trans (hsub i).1 (le_trans (hv i) (hsub i).2))
  simp only [aabb_t.expand_box, if_neg hax]
  exact ⟨le_trans (min_le_left _ _) (hsub i).1,
    le_trans (hsub i).2 (le_max_left _ _)⟩

theorem expand_fold_preserves (L : List (ℤ × aabb_t α)) :
    ∀ (b cp : aabb_t α), aabb_valid cp → aabb_subset cp b →
      aabb_subset cp (L.foldl (fun bx q => bx.expand_box q.2) b) := by
  induction L with
  | nil => intro b cp _ hsub; exact hsub
  | cons q L ih =>
    intro b cp hv hsub
    rw [List.foldl_cons]
    exact ih _ cp hv (expand_box_preserves q.2 hv hsub)

theorem bounds_union_fold_superset (L : List (ℤ × aabb_t α)) :
    ∀ (b : aabb_t α) (p : ℤ × aabb_t α), p ∈ L → aabb_valid p.2 →
      aabb_subset p.2 (L.foldl (fun bx q => bx.expand_box q.2) b) := by
  induction L with
  | nil => intro b p hp; cases hp
  | cons q L ih =>
    intro b p hp hv
    rw [List.foldl_cons]
    rcases List.mem_cons.1 hp with rfl | hmem
    · exact expand_fold_preserves L _ p.2 hv (expand_box_includes b p.2)
    · exact ih _ p hmem hv

theorem bounds_union_superset (L : List (ℤ × aabb_t α)) (p : ℤ × aabb_t α)
    (hp : p ∈ L) (hv : aabb_valid p.2) :
    aabb_subset p.2 (bounds_union L) :=
  bounds_union_fold_superset L aabb_reset p hp hv

theorem minmax_fold_valid (f : ℕ → V3 α) (l : List ℕ) :
    ∀ bx : aabb_t α, aabb_valid bx →
      aabb_valid (l.foldl (fun b k =>
        (⟨fun di => min (b.lo di) (f (k + 1) di),
          fun di => max (b.hi di) (f (k + 1) di)⟩ : aabb_t α)) bx) := by
  induction l with
  | nil => intro bx h; exact h
  | cons k l ih =>
    intro bx h
    rw [List.foldl_cons]
    refine ih _ fun i => ?_
    exact le_trans (min_le_left _ _) (le_trans (h i) (le_max_left _ _))

theorem aabb_apply_valid (b : aabb_t α) (T : transform_t α) :
    aabb_valid (b.apply T) := by
  exact minmax_fold_valid
    (fun ci => T.apply_pt (fun di =>
      if (ci >>> (di : ℕ)) % 2 = 1 then b.hi di else b.lo di))
    (List.range 7)
    ⟨fun di => T.apply_pt (fun d2 =>
        if (0 >>> (d2 : ℕ)) % 2 = 1 then b.hi d2 else b.lo d2) di,
     fun di => T.apply_pt (fun d2 =>
        if (0 >>> (d2 : ℕ)) % 2 = 1 then b.hi d2 else b.lo d2) di⟩
    (fun i => le_refl _)

/-- The leaves below a node, in traversal order; the `-1` empty leaf holds
nothing. -/
def leavesOf {α : Type*} : aabb_node_t α → List (ℤ × aabb_t α)
  | .leaf i b => if i < 0 then [] else [(i, b)]
  | .node _ l r => leavesOf l ++ leavesOf r

theorem partition_step_perm (dim : Fin 3) (pivot : α)
    (acc : List (ℤ × aabb_t α) × List (ℤ × aabb_t α)) (p : ℤ × aabb_t α) :
    List.Perm
      ((partition_step dim pivot acc p).1 ++ (partition_step dim pivot acc p).2)
      (acc.1 ++ acc.2 ++ [p]) := by
  simp only [partition_step]
  split_ifs <;>
    simp only [List.append_assoc] <;>
    first
      | exact List.Perm.append_left _ List.perm_append_comm
      | exact List.Perm.refl _

theorem partition_foldl_perm (dim : Fin 3) (pivot : α)
    (L : List (ℤ × aabb_t α)) :
    ∀ acc, List.Perm
      ((L.foldl (partition_step dim pivot) acc).1
        ++ (L.foldl (partition_step dim pivot) acc).2)
      (acc.1 ++ acc.2 ++ L) := by
  induction L with
  | nil => intro acc; simp
  | cons p L ih =>
    intro acc
    rw [List.foldl_cons]
    refine (ih _).trans ?_
    have h := (partition_step_perm dim pivot acc p).append_right L
    simpa [List.append_assoc] using h

theorem partition_perm (dim : Fin 3) (pivot : α) (L : List (ℤ × aabb_t α)) :
    List.Perm
      ((partition_leaves dim pivot L).1 ++ (partition_leaves dim pivot L).2)
      L := by
  have h := partition_foldl_perm dim pivot L ([], [])
  simpa [partition_leaves] using h

/-! ## Canonical-hit abstraction for the search equivalence -/

/-- Restriction of a canonical hit to an upper range bound: the hit is
reported exactly when its parameter does not exceed the bound. -/
def omap (o : Option (α × V3 α)) (b : α) : Option (α × V3 α) :=
  match o with
  | none => none
  | some (t, n) => if t ≤ b then some (t, n) else none

/-- The effect of querying element `i` on the running best `t`. -/
def mstep (hs : ℕ → Option (α × V3 α)) (b : α) (i : ℕ) : α :=
  match hs i with
  | none => b
  | some (t, _) => min b t

/-- One step of the brute-force scan on the canonical hits. -/
def bstep (hs : ℕ → Option (α × V3 α)) (st : ℕ × α × V3 α) (i : ℕ) :
    ℕ × α × V3 α :=
  match omap (hs i) st.2.1 with
  | none => st
  | some (t, n) => (i, t, n)

/-- Folding `mstep` over a leaf list, by leaf index. -/
def leafFold (hs : ℕ → Option (α × V3 α)) (b : α)
    (L : List (ℤ × aabb_t α)) : α :=
  L.foldl (fun b q => mstep hs b q.1.toNat) b

theorem mstep_le (hs : ℕ → Option (α × V3 α)) (b : α) (i : ℕ) :
    mstep hs b i ≤ b := by
  unfold mstep
  cases hs i with
  | none => exact le_refl b
  | some p => exact min_le_left _ _

theorem leafFold_le (hs : ℕ → Option (α × V3 α)) :
    ∀ (L : List (ℤ × aabb_t α)) (b : α), leafFold hs b L ≤ b := by
  intro L
  induction L with
  | nil => intro b; exact le_refl b
  | cons q L ih =>
    intro b
    exact le_trans (ih _) (mstep_le hs b q.1.toNat)

theorem leafFold_hold (hs : ℕ → Option (α × V3 α)) :
    ∀ (L : List (ℤ × aabb_t α)) (b : α),
      (∀ q ∈ L, ∀ t n, hs q.1.toNat = some (t, n) → b ≤ t) →
      leafFold hs b L = b := by
  intro L
  induction L with
  | nil => intro b _; rfl
  | cons q L ih =>
    intro b h
    have hq : mstep hs b q.1.toNat = b := by
      unfold mstep
      cases hh : hs q.1.toNat with
      | none => rfl
      | some p => exact min_eq_left (h q (by simp) p.1 p.2 (by rw [hh]))
    show leafFold hs (mstep hs b q.1.toNat) L = b
    rw [hq]
    exact ih b fun p hp => h p (List.mem_cons_of_mem q hp)

theorem leafFold_gt (hs : ℕ → Option (α × V3 α)) (t0 : α) :
    ∀ (L : List (ℤ × aabb_t α)) (b : α), t0 < b →
      (∀ q ∈ L, ∀ t n, hs q.1.toNat = some (t, n) → t0 < t) →
      t0 < leafFold hs b L := by
  intro L
  induction L with
  | nil => intro b hb _; exact hb
  | cons q L ih =>
    intro b hb h
    show t0 < leafFold hs (mstep hs b q.1.toNat) L
    refine ih _ ?_ fun p hp => h p (List.mem_cons_of_mem q hp)
    unfold mstep
    cases hh : hs q.1.toNat with
    | none => exact hb
    | some p => exact lt_min hb (h q (by simp) p.1 p.2 (by rw [hh]))

theorem mstep_right_comm (hs : ℕ → Option (α × V3 α)) (b : α) (i j : ℕ) :
    mstep hs (mstep hs b i) j = mstep hs (mstep hs b j) i := by
  unfold mstep
  cases hs i <;> cases hs j <;> simp [min_right_comm]

theorem leafFold_perm (hs : ℕ → Option (α × V3 α))
    {L L' : List (ℤ × aabb_t α)} (h : List.Perm L L') (b : α) :
    leafFold hs b L = leafFold hs b L' :=
  h.foldl_eq' (fun x _ y _ z => mstep_right_comm hs z x.1.toNat y.1.toNat) b

theorem leafFold_append (hs : ℕ → Option (α × V3 α))
    (L L' : List (ℤ × aabb_t α)) (b : α) :
    leafFold hs b (L ++ L') = leafFold hs (leafFold hs b L) L' :=
  List.foldl_append _ _ L L'

theorem foldl_bstep_t (hs : ℕ → Option (α × V3 α)) :
    ∀ (l : List ℕ) (st : ℕ × α × V3 α),
      (l.foldl (bstep hs) st).2.1 = l.foldl (mstep hs) st.2.1 := by
  intro l
  induction l with
  | nil => intro st; rfl
  | cons i l ih =>
    intro st
    rw [List.foldl_cons, List.foldl_cons, ih]
    congr 1
    unfold bstep mstep omap
    cases hh : hs i with
    | none => rfl
    | some p =>
      rcases p with ⟨t, n⟩
      by_cases ht : t ≤ st.2.1
      · simp only [if_pos ht]
        exact (min_eq_right ht).symm
      · simp only [if_neg ht]
        exact (min_eq_left (le_of_lt (not_le.1 ht))).symm

theorem foldl_bstep_hold (hs : ℕ → Option (α × V3 α)) :
    ∀ (l : List ℕ) (st : ℕ × α × V3 α),
      (∀ j ∈ l, ∀ t n, hs j = some (t, n) → ¬ t ≤ st.2.1) →
      l.foldl (bstep hs) st = st := by
  intro l
  induction l with
  | nil => intro st _; rfl
  | cons i l ih =>
    intro st h
    have hi : bstep hs st i = st := by
      unfold bstep omap
      cases hh : hs i with
      | none => rfl
      | some p =>
        simp only [if_neg (h i (by simp) p.1 p.2 (by rw [hh]))]
    rw [List.foldl_cons, hi]
    exact ih st fun j hj => h j (List.mem_cons_of_mem i hj)

theorem foldl_bstep_finds (hs : ℕ → Option (α × V3 α))
    (i0 : ℕ) (t0 : α) (n0 : V3 α) (hhit : hs i0 = some (t0, n0)) :
    ∀ (l : List ℕ) (st : ℕ × α × V3 α), l.Nodup → i0 ∈ l → t0 < st.2.1 →
      (∀ j ∈ l, j ≠ i0 → ∀ t n, hs j = some (t, n) → t0 < t) →
      l.foldl (bstep hs) st = (i0, t0, n0) := by
  intro l
  induction l with
  | nil => intro st _ hmem; exact absurd hmem (List.not_mem_nil i0)
  | cons i l ih =>
    intro st hnd hmem hlt huniq
    rw [List.foldl_cons]
    by_cases hi : i = i0
    · subst hi
      have hb : bstep hs st i = (i, t0, n0) := by
        unfold bstep omap
        rw [hhit]
        simp only [if_pos (le_of_lt hlt)]
      rw [hb]
      refine foldl_bstep_hold hs l (i, t0, n0) fun j hj t n hjn => ?_
      have hji : j ≠ i := fun he => (List.nodup_cons.1 hnd).1 (he ▸ hj)
      have := huniq j (List.mem_cons_of_mem i hj) hji t n hjn
      simpa using not_le.2 this
    · have hmem' : i0 ∈ l := by
        rcases List.mem_cons.1 hmem with h | h
        · exact absurd h.symm hi
        · exact h
      have hlt' : t0 < (bstep hs st i).2.1 := by
        unfold bstep omap
        cases hh : hs i with
        | none => exact hlt
        | some p =>
          rcases p with ⟨t, n⟩
          by_cases ht : t ≤ st.2.1
          · simp only [if_pos ht]
            exact huniq i (by simp) (fun he => hi he) t n hh
          · simp only [if_neg ht]
            exact hlt
      exact ih _ (List.nodup_cons.1 hnd).2 hmem' hlt'
        fun j hj => huniq j (List.mem_cons_of_mem i hj)

theorem element_default_intersects_none (sq : α → α) (r : ray_t α)
    (t_min t_max : α) :
    (element_default : element_t α).intersects sq r t_min t_max = none := rfl

/-- Membership in the leaf list built by `aabb_tree_t::init`. -/
theorem tree_leaf_list_mem (elems : List (element_t α)) (q : ℤ × aabb_t α) :
    q ∈ tree_leaf_list elems ↔
      ∃ i, i < elems.length ∧ ∃ sh,
        (elems.getD i element_default).shape = some sh ∧
        q = ((i : ℤ),
          sh.get_bounds.apply (elems.getD i element_default).transform) := by
  unfold tree_leaf_list
  rw [List.mem_filterMap]
  constructor
  · rintro ⟨i, hi, hq⟩
    rw [List.mem_range] at hi
    refine ⟨i, hi, ?_⟩
    cases hsh : (elems.getD i element_default).shape with
    | none => rw [hsh] at hq; exact absurd hq (by simp)
    | some sh =>
      rw [hsh] at hq
      simp only [Option.some.injEq] at hq
      exact ⟨sh, rfl, hq.symm⟩
  · rintro ⟨i, hi, sh, hsh, hq⟩
    refine ⟨i, List.mem_range.2 hi, ?_⟩
    rw [hsh, hq]

theorem tree_leaf_list_props (elems : List (element_t α)) (q : ℤ × aabb_t α)
    (hq : q ∈ tree_leaf_list elems) :
    0 ≤ q.1 ∧ q.1.toNat < elems.length ∧ aabb_valid q.2 := by
  rcases (tree_leaf_list_mem elems q).1 hq with ⟨i, hi, sh, hsh, hqe⟩
  rw [hqe]
  exact ⟨Int.ofNat_nonneg i, by simpa using hi, aabb_apply_valid _ _⟩

/-- Folding `mstep` over the tree's leaf indices is folding it over all
element indices, because elements skipped by the build (null shapes) have no
canonical hit. -/
theorem foldl_mstep_tree_leaf_list (elems : List (element_t α))
    (hs : ℕ → Option (α × V3 α))
    (Hnone : ∀ i, (elems.getD i element_default).shape = none → hs i = none) :
    ∀ (l : List ℕ) (b : α),
      ((l.filterMap fun i =>
          match (elems.getD i element_default).shape with
          | none => none
          | some sh => some ((i : ℤ),
              sh.get_bounds.apply (elems.getD i element_default).transform)).map
        (fun q => q.1.toNat)).foldl (mstep hs) b
      = l.foldl (mstep hs) b := by
  intro l
  induction l with
  | nil => intro b; rfl
  | cons i l ih =>
    intro b
    rw [List.filterMap_cons]
    cases hsh : (elems.getD i element_default).shape with
    | none =>
      rw [List.foldl_cons, ih]
      congr 1
      unfold mstep
      rw [Hnone i hsh]
    | some sh =>
      rw [List.map_cons, List.foldl_cons, List.foldl_cons, ih]
      congr 1

theorem shape_none_hs_none (sq : α → α) (elems : List (element_t α))
    (r : ray_t α) (t_min : α) (hs : ℕ → Option (α × V3 α))
    (Hcan : ∀ i, i < elems.length → ∀ b,
      (elems.getD i element_default).intersects sq r t_min b = omap (hs i) b)
    (Hout : ∀ i, elems.length ≤ i → hs i = none) :
    ∀ i, (elems.getD i element_default).shape = none → hs i = none := by
  intro i hsh
  by_cases hi : i < elems.length
  · cases hh : hs i with
    | none => rfl
    | some p =>
      rcases p with ⟨t, n⟩
      have h := Hcan i hi t
      rw [hh] at h
      unfold omap at h
      simp only [le_refl, if_true] at h
      unfold element_t.intersects at h
      rw [hsh] at h
      exact absurd h.symm (by simp)
  · exact Hout i (le_of_not_lt hi)

/-- Any element query by leaf index is the range restriction of the
canonical hit. -/
theorem elem_query_eq (sq : α → α) (elems : List (element_t α))
    (r : ray_t α) (t_min : α) (hs : ℕ → Option (α × V3 α))
    (Hcan : ∀ i, i < elems.length → ∀ b,
      (elems.getD i element_default).intersects sq r t_min b = omap (hs i) b)
    (Hout : ∀ i, elems.length ≤ i → hs i = none) (i : ℕ) (b : α) :
    (elems.getD i element_default).intersects sq r t_min b = omap (hs i) b := by
  by_cases hi : i < elems.length
  · exact Hcan i hi b
  · rw [List.getD_eq_default elems element_default (le_of_not_lt hi),
      element_default_intersects_none, Hout i (le_of_not_lt hi)]
    rfl

theorem node_init_leaves_perm_fuel :
    ∀ (n : ℕ) (L : List (ℤ × aabb_t α)), L.length ≤ n →
      (∀ p ∈ L, 0 ≤ p.1) → List.Perm (leavesOf (node_init L)) L := by
  intro n
  induction n with
  | zero =>
    intro L hL _
    rw [List.length_eq_zero.1 (Nat.le_zero.1 hL), node_init]
    simp [leavesOf]
  | succ n ih =>
    intro L hL hidx
    match L with
    | [] =>
      rw [node_init]
      simp [leavesOf]
    | [p] =>
      rw [node_init]
      simp [leavesOf, not_lt.2 (hidx p (by simp))]
    | [p, q] =>
      rw [node_init]
      simp [leavesOf, not_lt.2 (hidx p (by simp)), not_lt.2 (hidx q (by simp))]
    | x :: y :: z :: rest =>
      rw [node_init]
      have hperm := partition_perm (split_dim (midpoints_box (x :: y :: z :: rest)))
        ((midpoints_box (x :: y :: z :: rest)).center
          (split_dim (midpoints_box (x :: y :: z :: rest)))) (x :: y :: z :: rest)
      have hlen := partition_lengths_lt (x :: y :: z :: rest) (by simp)
      have hsub : ∀ p ∈ (partition_leaves (split_dim (midpoints_box (x :: y :: z :: rest)))
          ((midpoints_box (x :: y :: z :: rest)).center
            (split_dim (midpoints_box (x :: y :: z :: rest)))) (x :: y :: z :: rest)).1
          ++ (partition_leaves (split_dim (midpoints_box (x :: y :: z :: rest)))
          ((midpoints_box (x :: y :: z :: rest)).center
            (split_dim (midpoints_box (x :: y :: z :: rest)))) (x :: y :: z :: rest)).2,
          0 ≤ p.1 := fun p hp => hidx p (hperm.subset hp)
      have h1 := ih _ (by omega) fun p hp => hsub p (List.mem_append_left _ hp)
      have h2 := ih _ (by omega) fun p hp => hsub p (List.mem_append_right _ hp)
      show List.Perm (leavesOf _ ++ leavesOf _) _
      exact (h1.append h2).trans hperm

theorem node_init_leaves_perm (L : List (ℤ × aabb_t α))
    (hidx : ∀ p ∈ L, 0 ≤ p.1) : List.Perm (leavesOf (node_init L)) L :=
  node_init_leaves_perm_fuel L.length L (le_refl _) hidx

theorem node_init_bounds_superset (L : List (ℤ × aabb_t α))
    (hidx : ∀ p ∈ L, 0 ≤ p.1) (hval : ∀ p ∈ L, aabb_valid p.2) :
    ∀ q ∈ leavesOf (node_init L), aabb_subset q.2 (node_init L).bounds := by
  match L with
  | [] =>
    rw [node_init]
    intro q hq
    simp [leavesOf] at hq
  | [p] =>
    rw [node_init]
    intro q hq
    simp only [leavesOf, if_neg (not_lt.2 (hidx p (by simp))),
      List.mem_singleton] at hq
    subst hq
    exact fun i => ⟨le_refl _, le_refl _⟩
  | [p, p'] =>
    rw [node_init]
    intro q hq
    have hq' : q ∈ [p, p'] := by
      simp only [leavesOf, if_neg (not_lt.2 (hidx p (by simp))),
        if_neg (not_lt.2 (hidx p' (by simp))), List.mem_append,
        List.mem_singleton] at hq
      rcases hq with rfl | rfl <;> simp
    exact bounds_union_superset [p, p'] q hq' (hval q hq')
  | x :: y :: z :: rest =>
    rw [node_init]
    intro q hq
    have hperm := partition_perm (split_dim (midpoints_box (x :: y :: z :: rest)))
      ((midpoints_box (x :: y :: z :: rest)).center
        (split_dim (midpoints_box (x :: y :: z :: rest)))) (x :: y :: z :: rest)
    have hq2 : q ∈ leavesOf (node_init (partition_leaves
          (split_dim (midpoints_box (x :: y :: z :: rest)))
          ((midpoints_box (x :: y :: z :: rest)).center
            (split_dim (midpoints_box (x :: y :: z :: rest))))
          (x :: y :: z :: rest)).1)
        ++ leavesOf (node_init (partition_leaves
          (split_dim (midpoints_box (x :: y :: z :: rest)))
          ((midpoints_box (x :: y :: z :: rest)).center
            (split_dim (midpoints_box (x :: y :: z :: rest))))
          (x :: y :: z :: rest)).2) := hq
    have hsubL : ∀ p ∈ (partition_leaves (split_dim (midpoints_box (x :: y :: z :: rest)))
        ((midpoints_box (x :: y :: z :: rest)).center
          (split_dim (midpoints_box (x :: y :: z :: rest)))) (x :: y :: z :: rest)).1
        ++ (partition_leaves (split_dim (midpoints_box (x :: y :: z :: rest)))
        ((midpoints_box (x :: y :: z :: rest)).center
          (split_dim (midpoints_box (x :: y :: z :: rest)))) (x :: y :: z :: rest)).2,
        p ∈ (x :: y :: z :: rest) := fun p hp => hperm.subset hp
    have hqL : q ∈ (x :: y :: z :: rest) := by
      rcases List.mem_append.1 hq2 with h | h
      · refine hsubL q (List.mem_append_left _ ?_)
        exact (node_init_leaves_perm _ fun p hp =>
          hidx p (hsubL p (List.mem_append_left _ hp))).mem_iff.1 h
      · refine hsubL q (List.mem_append_right _ ?_)
        exact (node_init_leaves_perm _ fun p hp =>
          hidx p (hsubL p (List.mem_append_right _ hp))).mem_iff.1 h
    exact bounds_union_superset _ q hqL (hval q hqL)

/-- The pruning test of `aabb_node_t::trace` is sound for a subtree: every
canonical hit at a leaf below it (within the search range) is preceded by a
hit of the subtree's bounding box. -/
def boxed (r : ray_t α) (t_min t_max : α) (hs : ℕ → Option (α × V3 α))
    (c : aabb_node_t α) : Prop :=
  ∀ q ∈ leavesOf c, ∀ t n, hs q.1.toNat = some (t, n) → t ≤ t_max →
    ∃ e nn, c.bounds.intersects r t_min t_max = some (e, nn) ∧ e ≤ t

/-- Both children of every internal node are `boxed`. -/
def conserv (r : ray_t α) (t_min t_max : α) (hs : ℕ → Option (α × V3 α)) :
    aabb_node_t α → Prop
  | .leaf _ _ => True
  | .node _ c0 c1 => conserv r t_min t_max hs c0 ∧ conserv r t_min t_max hs c1
      ∧ boxed r t_min t_max hs c0 ∧ boxed r t_min t_max hs c1

theorem conserv_node_init_fuel (r : ray_t α) (t_min t_max : α)
    (hs : ℕ → Option (α × V3 α)) :
    ∀ (n : ℕ) (L : List (ℤ × aabb_t α)), L.length ≤ n →
      (∀ p ∈ L, 0 ≤ p.1) → (∀ p ∈ L, aabb_valid p.2) →
      (∀ p ∈ L, ∀ t nn, hs p.1.toNat = some (t, nn) → t ≤ t_max →
        ∃ e en, p.2.intersects r t_min t_max = some (e, en) ∧ e ≤ t) →
      conserv r t_min t_max hs (node_init L) := by
  intro n
  induction n with
  | zero =>
    intro L hL _ _ _
    rw [List.length_eq_zero.1 (Nat.le_zero.1 hL), node_init]
    exact trivial
  | succ n ih =>
    intro L hL hidx hval hbox
    match L with
    | [] =>
      rw [node_init]
      exact trivial
    | [p] =>
      rw [node_init]
      exact trivial
    | [p, p'] =>
      rw [node_init]
      refine ⟨trivial, trivial, ?_, ?_⟩
      · intro q hq t nn hh ht
        simp only [leavesOf, if_neg (not_lt.2 (hidx p (by simp))),
          List.mem_singleton] at hq
        subst hq
        exact hbox p (by simp) t nn hh ht
      · intro q hq t nn hh ht
        simp only [leavesOf, if_neg (not_lt.2 (hidx p' (by simp))),
          List.mem_singleton] at hq
        subst hq
        exact hbox p' (by simp) t nn hh ht
    | x :: y :: z :: rest =>
      rw [node_init]
      have hperm := partition_perm (split_dim (midpoints_box (x :: y :: z :: rest)))
        ((midpoints_box (x :: y :: z :: rest)).center
          (split_dim (midpoints_box (x :: y :: z :: rest)))) (x :: y :: z :: rest)
      have hlen := partition_lengths_lt (x :: y :: z :: rest) (by simp)
      have hmem1 : ∀ p ∈ (partition_leaves (split_dim (midpoints_box (x :: y :: z :: rest)))
          ((midpoints_box (x :: y :: z :: rest)).center
            (split_dim (midpoints_box (x :: y :: z :: rest)))) (x :: y :: z :: rest)).1,
          p ∈ (x :: y :: z :: rest) :=
        fun p hp => hperm.subset (List.mem_append_left _ hp)
      have hmem2 : ∀ p ∈ (partition_leaves (split_dim (midpoints_box (x :: y :: z :: rest)))
          ((midpoints_box (x :: y :: z :: rest)).center
            (split_dim (midpoints_box (x :: y :: z :: rest)))) (x :: y :: z :: rest)).2,
          p ∈ (x :: y :: z :: rest) :=
        fun p hp => hperm.subset (List.mem_append_right _ hp)
      refine ⟨ih _ (by omega) (fun p hp => hidx p (hmem1 p hp))
          (fun p hp => hval p (hmem1 p hp)) (fun p hp => hbox p (hmem1 p hp)),
        ih _ (by omega) (fun p hp => hidx p (hmem2 p hp))
          (fun p hp => hval p (hmem2 p hp)) (fun p hp => hbox p (hmem2 p hp)),
        ?_, ?_⟩
      · intro q hq t nn hh ht
        have hqm : q ∈ (partition_leaves (split_dim (midpoints_box (x :: y :: z :: rest)))
            ((midpoints_box (x :: y :: z :: rest)).center
              (split_dim (midpoints_box (x :: y :: z :: rest)))) (x :: y :: z :: rest)).1 :=
          (node_init_leaves_perm _ fun p hp => hidx p (hmem1 p hp)).mem_iff.1 hq
        rcases hbox q (hmem1 q hqm) t nn hh ht with ⟨e, en, he, het⟩
        rcases aabb_intersects_mono r t_min t_max (hval q (hmem1 q hqm))
            (node_init_bounds_superset _ (fun p hp => hidx p (hmem1 p hp))
              (fun p hp => hval p (hmem1 p hp)) q hq) he with ⟨T, Tn, hT, hTe⟩
        exact ⟨T, Tn, hT, le_trans hTe het⟩
      · intro q hq t nn hh ht
        have hqm : q ∈ (partition_leaves (split_dim (midpoints_box (x :: y :: z :: rest)))
            ((midpoints_box (x :: y :: z :: rest)).center
              (split_dim (midpoints_box (x :: y :: z :: rest)))) (x :: y :: z :: rest)).2 :=
          (node_init_leaves_perm _ fun p hp => hidx p (hmem2 p hp)).mem_iff.1 hq
        rcases hbox q (hmem2 q hqm) t nn hh ht with ⟨e, en, he, het⟩
        rcases aabb_intersects_mono r t_min t_max (hval q (hmem2 q hqm))
            (node_init_bounds_superset _ (fun p hp => hidx p (hmem2 p hp))
              (fun p hp => hval p (hmem2 p hp)) q hq) he with ⟨T, Tn, hT, hTe⟩
        exact ⟨T, Tn, hT, le_trans hTe het⟩

theorem conserv_node_init (r : ray_t α) (t_min t_max : α)
    (hs : ℕ → Option (α × V3 α)) (L : List (ℤ × aabb_t α))
    (hidx : ∀ p ∈ L, 0 ≤ p.1) (hval : ∀ p ∈ L, aabb_valid p.2)
    (hbox : ∀ p ∈ L, ∀ t nn, hs p.1.toNat = some (t, nn) → t ≤ t_max →
      ∃ e en, p.2.intersects r t_min t_max = some (e, en) ∧ e ≤ t) :
    conserv r t_min t_max hs (node_init L) :=
  conserv_node_init_fuel r t_min t_max hs L.length L (le_refl _) hidx hval hbox

theorem node_trace_t (sq : α → α) (elems : List (element_t α)) (r : ray_t α)
    (t_min t_max : α) (hs : ℕ → Option (α × V3 α))
    (Hcan : ∀ i, i < elems.length → ∀ b,
      (elems.getD i element_default).intersects sq r t_min b = omap (hs i) b)
    (Hout : ∀ i, elems.length ≤ i → hs i = none) :
    ∀ nd : aabb_node_t α, conserv r t_min t_max hs nd →
      ∀ st : ℕ × α × V3 α, st.2.1 ≤ t_max →
        (node_trace sq elems r false t_min t_max nd st).2.1
          = leafFold hs st.2.1 (leavesOf nd) := by
  intro nd
  induction nd with
  | leaf idx b =>
    intro _ st hst
    rw [node_trace]
    simp only [Bool.false_eq_true, false_and, if_false]
    by_cases hneg : idx < 0
    · simp only [if_pos hneg, leavesOf, if_pos hneg]
      rfl
    · simp only [if_neg hneg, leavesOf]
      rw [elem_query_eq sq elems r t_min hs Hcan Hout idx.toNat t_max]
      show _ = leafFold hs st.2.1 [(idx, b)]
      unfold leafFold
      rw [List.foldl_cons, List.foldl_nil]
      unfold omap mstep
      cases hh : hs idx.toNat with
      | none => rfl
      | some p =>
        rcases p with ⟨t, n⟩
        by_cases htm : t ≤ t_max
        · simp only [if_pos htm]
          by_cases hlt : t < st.2.1
          · simp only [if_pos hlt]
            exact (min_eq_right (le_of_lt hlt)).symm
          · simp only [if_neg hlt]
            exact (min_eq_left (le_of_not_lt hlt)).symm
        · simp only [if_neg htm]
          exact (min_eq_left (le_trans hst (le_of_lt (not_le.1 htm)))).symm
  | node b c0 c1 ih0 ih1 =>
    intro hcv st hst
    obtain ⟨hc0, hc1, hb0, hb1⟩ := hcv
    have hrhs : leafFold hs st.2.1 (leavesOf (aabb_node_t.node b c0 c1))
        = leafFold hs (leafFold hs st.2.1 (leavesOf c0)) (leavesOf c1) := by
      show leafFold hs st.2.1 (leavesOf c0 ++ leavesOf c1) = _
      exact leafFold_append hs _ _ _
    rw [node_trace]
    simp only [Bool.false_eq_true, false_and, if_false]
    cases h0 : c0.bounds.intersects r t_min t_max with
    | none =>
      have hold0 : ∀ bb, bb ≤ t_max → leafFold hs bb (leavesOf c0) = bb := by
        intro bb hbb
        refine leafFold_hold hs _ bb fun q hq t n hh => ?_
        by_cases htm : t ≤ t_max
        · rcases hb0 q hq t n hh htm with ⟨e, nn, he, _⟩
          rw [h0] at he
          exact absurd he (by simp)
        · exact le_trans hbb (le_of_lt (not_le.1 htm))
      cases h1 : c1.bounds.intersects r t_min t_max with
      | none =>
        have hold1 : leafFold hs st.2.1 (leavesOf c1) = st.2.1 := by
          refine leafFold_hold hs _ _ fun q hq t n hh => ?_
          by_cases htm : t ≤ t_max
          · rcases hb1 q hq t n hh htm with ⟨e, nn, he, _⟩
            rw [h1] at he
            exact absurd he (by simp)
          · exact le_trans hst (le_of_lt (not_le.1 htm))
        rw [hrhs, hold0 st.2.1 hst, hold1]
      | some p1 =>
        rcases p1 with ⟨e1b, n1b⟩
        by_cases he1 : e1b < st.2.1
        · simp only [if_pos he1]
          rw [hrhs, hold0 st.2.1 hst]
          exact ih1 hc1 st hst
        · simp only [if_neg he1]
          have hold1 : leafFold hs st.2.1 (leavesOf c1) = st.2.1 := by
            refine leafFold_hold hs _ _ fun q hq t n hh => ?_
            by_cases htm : t ≤ t_max
            · rcases hb1 q hq t n hh htm with ⟨e, nn, he, het⟩
              rw [h1] at he
              have : e = e1b := (congrArg Prod.fst (Option.some.inj he)).symm
              exact le_trans (le_of_not_lt he1) (this ▸ het)
            · exact le_trans hst (le_of_lt (not_le.1 htm))
          rw [hrhs, hold0 st.2.1 hst, hold1]
    | some p0 =>
      rcases p0 with ⟨e0b, n0b⟩
      have hold0far : ∀ bb, bb ≤ e0b → bb ≤ t_max →
          leafFold hs bb (leavesOf c0) = bb := by
        intro bb hbe hbb
        refine leafFold_hold hs _ bb fun q hq t n hh => ?_
        by_cases htm : t ≤ t_max
        · rcases hb0 q hq t n hh htm with ⟨e, nn, he, het⟩
          rw [h0] at he
          have : e = e0b := (congrArg Prod.fst (Option.some.inj he)).symm
          exact le_trans hbe (this ▸ het)
        · exact le_trans hbb (le_of_lt (not_le.1 htm))
      cases h1 : c1.bounds.intersects r t_min t_max with
      | none =>
        have hold1far : ∀ bb, bb ≤ t_max → leafFold hs bb (leavesOf c1) = bb := by
          intro bb hbb
          refine leafFold_hold hs _ bb fun q hq t n hh => ?_
          by_cases htm : t ≤ t_max
          · rcases hb1 q hq t n hh htm with ⟨e, nn, he, _⟩
            rw [h1] at he
            exact absurd he (by simp)
          · exact le_trans hbb (le_of_lt (not_le.1 htm))
        by_cases he0 : e0b < st.2.1
        · simp only [if_pos he0]
          rw [hrhs, ih0 hc0 st hst,
            hold1far _ (le_trans (leafFold_le hs _ _) hst)]
        · simp only [if_neg he0]
          rw [hrhs, hold0far st.2.1 (le_of_not_lt he0) hst,
            hold1far _ hst]
      | some p1 =>
        rcases p1 with ⟨e1b, n1b⟩
        have hold1far : ∀ bb, bb ≤ e1b → bb ≤ t_max →
            leafFold hs bb (leavesOf c1) = bb := by
          intro bb hbe hbb
          refine leafFold_hold hs _ bb fun q hq t n hh => ?_
          by_cases htm : t ≤ t_max
          · rcases hb1 q hq t n hh htm with ⟨e, nn, he, het⟩
            rw [h1] at he
            have : e = e1b := (congrArg Prod.fst (Option.some.inj he)).symm
            exact le_trans hbe (this ▸ het)
          · exact le_trans hbb (le_of_lt (not_le.1 htm))
        by_cases he0 : e0b < st.2.1
        · by_cases he1 : e1b < st.2.1
          · simp only [if_pos he0, if_pos he1]
            by_cases hcmp : e0b < e1b
            · simp only [if_pos hcmp]
              have hst1 := ih0 hc0 st hst
              by_cases hskip :
                  (node_trace sq elems r false t_min t_max c0 st).2.1 < e1b
              · simp only [if_pos hskip]
                rw [hrhs, ← hst1]
                exact (hold1far _ (le_of_lt hskip)
                  (le_trans (hst1 ▸ leafFold_le hs _ _) hst)).symm
              · simp only [if_neg hskip]
                rw [ih1 hc1 _ (le_trans (hst1 ▸ leafFold_le hs _ _) hst),
                  hrhs, hst1]
            · simp only [if_neg hcmp]
              have hperm : leafFold hs st.2.1
                    (leavesOf (aabb_node_t.node b c0 c1))
                  = leafFold hs (leafFold hs st.2.1 (leavesOf c1))
                      (leavesOf c0) := by
                show leafFold hs st.2.1 (leavesOf c0 ++ leavesOf c1) = _
                rw [leafFold_perm hs List.perm_append_comm]
                exact leafFold_append hs _ _ _
              have hst1 := ih1 hc1 st hst
              by_cases hskip :
                  (node_trace sq elems r false t_min t_max c1 st).2.1 < e0b
              · simp only [if_pos hskip]
                rw [hperm, ← hst1]
                exact (hold0far _ (le_of_lt hskip)
                  (le_trans (hst1 ▸ leafFold_le hs _ _) hst)).symm
              · simp only [if_neg hskip]
                rw [ih0 hc0 _ (le_trans (hst1 ▸ leafFold_le hs _ _) hst),
                  hperm, hst1]
          · simp only [if_pos he0, if_neg he1]
            rw [hrhs, ih0 hc0 st hst,
              hold1far _ (le_trans (leafFold_le hs _ _) (le_of_not_lt he1))
                (le_trans (leafFold_le hs _ _) hst)]
        · by_cases he1 : e1b < st.2.1
          · simp only [if_neg he0, if_pos he1]
            rw [hrhs, hold0far st.2.1 (le_of_not_lt he0) hst]
            exact ih1 hc1 st hst
          · simp only [if_neg he0, if_neg he1]
            rw [hrhs, hold0far st.2.1 (le_of_not_lt he0) hst,
              hold1far st.2.1 (le_of_not_lt he1) hst]

theorem node_trace_hold (sq : α → α) (elems : List (element_t α)) (r : ray_t α)
    (t_min t_max : α) (hs : ℕ → Option (α × V3 α))
    (Hcan : ∀ i, i < elems.length → ∀ b,
      (elems.getD i element_default).intersects sq r t_min b = omap (hs i) b)
    (Hout : ∀ i, elems.length ≤ i → hs i = none) :
    ∀ nd : aabb_node_t α, ∀ st : ℕ × α × V3 α,
      (∀ q ∈ leavesOf nd, ∀ t n, hs q.1.toNat = some (t, n) → ¬ t < st.2.1) →
      node_trace sq elems r false t_min t_max nd st = st := by
  intro nd
  induction nd with
  | leaf idx b =>
    intro st hhold
    rw [node_trace]
    simp only [Bool.false_eq_true, false_and, if_false]
    by_cases hneg : idx < 0
    · simp only [if_pos hneg]
    · simp only [if_neg hneg]
      rw [elem_query_eq sq elems r t_min hs Hcan Hout idx.toNat t_max]
      unfold omap
      cases hh : hs idx.toNat with
      | none => rfl
      | some p =>
        rcases p with ⟨t, n⟩
        have hq : ((idx, b) : ℤ × aabb_t α) ∈ leavesOf (aabb_node_t.leaf idx b) := by
          simp [leavesOf, if_neg hneg]
        have := hhold (idx, b) hq t n hh
        by_cases htm : t ≤ t_max
        · simp only [if_pos htm, if_neg this]
        · simp only [if_neg htm]
  | node b c0 c1 ih0 ih1 =>
    intro st hhold
    have H0 := ih0 st fun q hq => hhold q (List.mem_append_left _ hq)
    have H1 := ih1 st fun q hq => hhold q (List.mem_append_right _ hq)
    rw [node_trace]
    simp only [Bool.false_eq_true, false_and, if_false]
    cases h0 : c0.bounds.intersects r t_min t_max with
    | none =>
      cases h1 : c1.bounds.intersects r t_min t_max with
      | none => rfl
      | some p1 =>
        rcases p1 with ⟨e1b, n1b⟩
        by_cases he1 : e1b < st.2.1
        · simp only [if_pos he1]
          exact H1
        · simp only [if_neg he1]
    | some p0 =>
      rcases p0 with ⟨e0b, n0b⟩
      cases h1 : c1.bounds.intersects r t_min t_max with
      | none =>
        by_cases he0 : e0b < st.2.1
        · simp only [if_pos he0]
          exact H0
        · simp only [if_neg he0]
      | some p1 =>
        rcases p1 with ⟨e1b, n1b⟩
        by_cases he0 : e0b < st.2.1
        · by_cases he1 : e1b < st.2.1
          · simp only [if_pos he0, if_pos he1]
            by_cases hcmp : e0b < e1b
            · simp only [if_pos hcmp, H0]
              by_cases hskip : st.2.1 < e1b
              · simp only [if_pos hskip]
              · simp only [if_neg hskip]
                exact H1
            · simp only [if_neg hcmp, H1]
              by_cases hskip : st.2.1 < e0b
              · simp only [if_pos hskip]
              · simp only [if_neg hskip]
                exact H0
          · simp only [if_pos he0, if_neg he1]
            exact H0
        · by_cases he1 : e1b < st.2.1
          · simp only [if_neg he0, if_pos he1]
            exact H1
          · simp only [if_neg he0, if_neg he1]

theorem node_trace_finds (sq : α → α) (elems : List (element_t α))
    (r : ray_t α) (t_min t_max : α) (hs : ℕ → Option (α × V3 α))
    (Hcan : ∀ i, i < elems.length → ∀ b,
      (elems.getD i element_default).intersects sq r t_min b = omap (hs i) b)
    (Hout : ∀ i, elems.length ≤ i → hs i = none)
    (i0 : ℕ) (t0 : α) (n0 : V3 α) (hhit : hs i0 = some (t0, n0))
    (hmax : t0 < t_max) :
    ∀ nd : aabb_node_t α, conserv r t_min t_max hs nd →
      (∃ q ∈ leavesOf nd, q.1.toNat = i0) →
      (∀ q ∈ leavesOf nd, q.1.toNat ≠ i0 →
        ∀ t n, hs q.1.toNat = some (t, n) → t0 < t) →
      ∀ st : ℕ × α × V3 α, st.2.1 ≤ t_max → t0 < st.2.1 →
        node_trace sq elems r false t_min t_max nd st = (i0, t0, n0) := by
  intro nd
  induction nd with
  | leaf idx b =>
    rintro _ ⟨q, hq, hqi⟩ _ st hst hlt
    by_cases hneg : idx < 0
    · rw [leavesOf, if_pos hneg] at hq
      exact absurd hq (List.not_mem_nil q)
    · rw [leavesOf, if_neg hneg, List.mem_singleton] at hq
      subst hq
      rw [node_trace]
      simp only [Bool.false_eq_true, false_and, if_false, if_neg hneg]
      rw [elem_query_eq sq elems r t_min hs Hcan Hout idx.toNat t_max]
      show (match omap (hs (idx, b).1.toNat) t_max with
        | none => st
        | some (t, n) => if t < st.2.1 then (idx.toNat, t, n) else st) = _
      rw [hqi, hhit]
      unfold omap
      simp only [if_pos (le_of_lt hmax), if_pos hlt]
  | node b c0 c1 ih0 ih1 =>
    rintro hcv ⟨qs, hqs, hqsi⟩ huniq st hst hlt
    obtain ⟨hc0, hc1, hb0, hb1⟩ := hcv
    have huniq0 : ∀ q ∈ leavesOf c0, q.1.toNat ≠ i0 →
        ∀ t n, hs q.1.toNat = some (t, n) → t0 < t :=
      fun q hq => huniq q (List.mem_append_left _ hq)
    have huniq1 : ∀ q ∈ leavesOf c1, q.1.toNat ≠ i0 →
        ∀ t n, hs q.1.toNat = some (t, n) → t0 < t :=
      fun q hq => huniq q (List.mem_append_right _ hq)
    have hnorec : ∀ q ∈ leavesOf c0 ++ leavesOf c1,
        ∀ t n, hs q.1.toNat = some (t, n) → ¬ t < t0 := by
      intro q hq t n hh
      by_cases hqi : q.1.toNat = i0
      · rw [hqi, hhit] at hh
        have ht : t0 = t := congrArg Prod.fst (Option.some.inj hh)
        rw [← ht]
        exact lt_irrefl t0
      · exact not_lt.2 (le_of_lt (huniq q hq hqi t n hh))
    by_cases hin0 : ∃ q ∈ leavesOf c0, q.1.toNat = i0
    · rcases hin0 with ⟨qh, hqh, hqhi⟩
      rcases hb0 qh hqh t0 n0 (by rw [hqhi, hhit]) (le_of_lt hmax)
        with ⟨e, nn, he0box, he0t⟩
      rw [node_trace]
      simp only [Bool.false_eq_true, false_and, if_false]
      rw [he0box]
      simp only [if_pos (lt_of_le_of_lt he0t hlt)]
      cases h1 : c1.bounds.intersects r t_min t_max with
      | none =>
        exact ih0 hc0 ⟨qh, hqh, hqhi⟩ huniq0 st hst hlt
      | some p1 =>
        rcases p1 with ⟨e1b, n1b⟩
        by_cases he1 : e1b < st.2.1
        · simp only [if_pos he1]
          by_cases hcmp : e < e1b
          · simp only [if_pos hcmp]
            rw [ih0 hc0 ⟨qh, hqh, hqhi⟩ huniq0 st hst hlt]
            by_cases hskip : ((i0, t0, n0) : ℕ × α × V3 α).2.1 < e1b
            · simp only [if_pos hskip]
            · simp only [if_neg hskip]
              exact node_trace_hold sq elems r t_min t_max hs Hcan Hout c1
                (i0, t0, n0) fun q hq => hnorec q (List.mem_append_right _ hq)
          · simp only [if_neg hcmp]
            by_cases hin1 : ∃ q ∈ leavesOf c1, q.1.toNat = i0
            · rw [ih1 hc1 hin1 huniq1 st hst hlt]
              have : ¬ ((i0, t0, n0) : ℕ × α × V3 α).2.1 < e :=
                not_lt.2 he0t
              simp only [if_neg this]
              exact node_trace_hold sq elems r t_min t_max hs Hcan Hout c0
                (i0, t0, n0) fun q hq => hnorec q (List.mem_append_left _ hq)
            · have hnot1 : ∀ q ∈ leavesOf c1, q.1.toNat ≠ i0 :=
                fun q hq he => hin1 ⟨q, hq, he⟩
              have hchar := node_trace_t sq elems r t_min t_max hs Hcan Hout
                c1 hc1 st hst
              have hgt : t0 < (node_trace sq elems r false t_min t_max c1 st).2.1 := by
                rw [hchar]
                exact leafFold_gt hs t0 _ _ hlt
                  fun q hq => huniq1 q hq (hnot1 q hq)
              have hle : (node_trace sq elems r false t_min t_max c1 st).2.1 ≤ t_max := by
                rw [hchar]
                exact le_trans (leafFold_le hs _ _) hst
              have hnoskip : ¬ (node_trace sq elems r false t_min t_max c1 st).2.1 < e :=
                not_lt.2 (le_trans he0t (le_of_lt hgt))
              simp only [if_neg hnoskip]
              exact ih0 hc0 ⟨qh, hqh, hqhi⟩ huniq0 _ hle hgt
        · simp only [if_neg he1]
          exact ih0 hc0 ⟨qh, hqh, hqhi⟩ huniq0 st hst hlt
    · have hnot0 : ∀ q ∈ leavesOf c0, q.1.toNat ≠ i0 :=
        fun q hq he => hin0 ⟨q, hq, he⟩
      have hqs1 : qs ∈ leavesOf c1 := by
        rcases List.mem_append.1 hqs with h | h
        · exact absurd hqsi (hnot0 qs h)
        · exact h
      rcases hb1 qs hqs1 t0 n0 (by rw [hqsi, hhit]) (le_of_lt hmax)
        with ⟨e1, nn1, he1box, he1t⟩
      rw [node_trace]
      simp only [Bool.false_eq_true, false_and, if_false]
      rw [he1box]
      simp only [if_pos (lt_of_le_of_lt he1t hlt)]
      cases h0 : c0.bounds.intersects r t_min t_max with
      | none =>
        exact ih1 hc1 ⟨qs, hqs1, hqsi⟩ huniq1 st hst hlt
      | some p0 =>
        rcases p0 with ⟨e0b, n0b⟩
        by_cases he0 : e0b < st.2.1
        · simp only [if_pos he0]
          by_cases hcmp : e0b < e1
          · simp only [if_pos hcmp]
            have hchar := node_trace_t sq elems r t_min t_max hs Hcan Hout
              c0 hc0 st hst
            have hgt : t0 < (node_trace sq elems r false t_min t_max c0 st).2.1 := by
              rw [hchar]
              exact leafFold_gt hs t0 _ _ hlt
                fun q hq => huniq0 q hq (hnot0 q hq)
            have hle : (node_trace sq elems r false t_min t_max c0 st).2.1 ≤ t_max := by
              rw [hchar]
              exact le_trans (leafFold_le hs _ _) hst
            have hnoskip : ¬ (node_trace sq elems r false t_min t_max c0 st).2.1 < e1 :=
              not_lt.2 (le_trans he1t (le_of_lt hgt))
            simp only [if_neg hnoskip]
            exact ih1 hc1 ⟨qs, hqs1, hqsi⟩ huniq1 _ hle hgt
          · simp only [if_neg hcmp]
            rw [ih1 hc1 ⟨qs, hqs1, hqsi⟩ huniq1 st hst hlt]
            by_cases hskip : ((i0, t0, n0) : ℕ × α × V3 α).2.1 < e0b
            · simp only [if_pos hskip]
            · simp only [if_neg hskip]
              exact node_trace_hold sq elems r t_min t_max hs Hcan Hout c0
                (i0, t0, n0) fun q hq => hnorec q (List.mem_append_left _ hq)
        · simp only [if_neg he0]
          exact ih1 hc1 ⟨qs, hqs1, hqsi⟩ huniq1 st hst hlt

theorem brute_force_eq_bstep (sq : α → α) (elems : List (element_t α))
    (r : ray_t α) (t_min t_max : α) (hs : ℕ → Option (α × V3 α))
    (Hcan : ∀ i, i < elems.length → ∀ b,
      (elems.getD i element_default).intersects sq r t_min b = omap (hs i) b) :
    brute_force_search sq elems r false t_min t_max
      = (List.range elems.length).foldl (bstep hs)
          (elems.length, t_max, fun _ => 0) := by
  unfold brute_force_search
  refine List.foldl_ext _ _ _ fun st i hi => ?_
  rw [List.mem_range] at hi
  simp only [Bool.false_eq_true, false_and, if_false]
  rw [Hcan i hi st.2.1]
  rfl

/-- C1: the claimed exact equality of the full nearest-hit triple fails at
range-boundary ties (see the counterexample), and holds in this amended
form: under canonical element hits (`Hcan`/`Hout`: each element reports its
fixed nearest hit exactly when it is within the queried upper bound) and
conservative leaf bounds (`Hbox`), (1) the BVH traversal with
`shortcircuit=false` and the brute-force linear scan always agree on the
nearest hit parameter `t`, and (2) whenever some element has a strictly
nearest hit strictly inside the search range, the two searches return the
same full triple (element index, hit parameter, and surface normal) — for
element lists of every size, including 0, 1, and 2. -/
theorem bvh_brute_force_equivalence_amended (sq : α → α)
    (elems : List (element_t α)) (r : ray_t α) (t_min t_max : α)
    (hs : ℕ → Option (α × V3 α))
    (Hcan : ∀ i, i < elems.length → ∀ b,
      (elems.getD i element_default).intersects sq r t_min b = omap (hs i) b)
    (Hout : ∀ i, elems.length ≤ i → hs i = none)
    (Hbox : ∀ q ∈ tree_leaf_list elems, ∀ t nn, hs q.1.toNat = some (t, nn) →
      t ≤ t_max → ∃ e en, q.2.intersects r t_min t_max = some (e, en) ∧ e ≤ t) :
    (tree_trace sq elems r false t_min t_max).2.1
      = (brute_force_search sq elems r false t_min t_max).2.1
    ∧ ∀ i0 t0 n0, hs i0 = some (t0, n0) → t0 < t_max →
        (∀ j, j ≠ i0 → ∀ t n, hs j = some (t, n) → t0 < t) →
        tree_trace sq elems r false t_min t_max = (i0, t0, n0)
        ∧ brute_force_search sq elems r false t_min t_max = (i0, t0, n0) := by
  have Hnone := shape_none_hs_none sq elems r t_min hs Hcan Hout
  have hidx : ∀ p ∈ tree_leaf_list elems, 0 ≤ p.1 :=
    fun p hp => (tree_leaf_list_props elems p hp).1
  have hval : ∀ p ∈ tree_leaf_list elems, aabb_valid p.2 :=
    fun p hp => (tree_leaf_list_props elems p hp).2.2
  have hcv : conserv r t_min t_max hs (tree_init elems) :=
    conserv_node_init r t_min t_max hs (tree_leaf_list elems) hidx hval Hbox
  have hperm := node_init_leaves_perm (tree_leaf_list elems) hidx
  constructor
  · show (node_trace sq elems r false t_min t_max (tree_init elems)
      (elems.length, t_max, fun _ => 0)).2.1 = _
    rw [node_trace_t sq elems r t_min t_max hs Hcan Hout _ hcv _
      (le_refl t_max)]
    rw [brute_force_eq_bstep sq elems r t_min t_max hs Hcan, foldl_bstep_t]
    have h1 : leafFold hs t_max (leavesOf (tree_init elems))
        = leafFold hs t_max (tree_leaf_list elems) :=
      leafFold_perm hs hperm t_max
    have h2 : leafFold hs t_max (tree_leaf_list elems)
        = ((tree_leaf_list elems).map (fun q => q.1.toNat)).foldl
            (mstep hs) t_max := (List.foldl_map _ _ _ _).symm
    have h3 : ((tree_leaf_list elems).map (fun q => q.1.toNat)).foldl
          (mstep hs) t_max
        = (List.range elems.length).foldl (mstep hs) t_max :=
      foldl_mstep_tree_leaf_list elems hs Hnone (List.range elems.length) t_max
    rw [h1, h2, h3]
  · intro i0 t0 n0 hhit hmax huniq
    have hi0 : i0 < elems.length := by
      by_contra h
      rw [Hout i0 (le_of_not_lt h)] at hhit
      exact absurd hhit (by simp)
    have hsh : ∃ sh, (elems.getD i0 element_default).shape = some sh := by
      cases hshape : (elems.getD i0 element_default).shape with
      | none =>
        rw [Hnone i0 hshape] at hhit
        exact absurd hhit (by simp)
      | some sh => exact ⟨sh, rfl⟩
    rcases hsh with ⟨sh, hsh⟩
    have hmem : ((i0 : ℤ),
        sh.get_bounds.apply (elems.getD i0 element_default).transform)
        ∈ tree_leaf_list elems :=
      (tree_leaf_list_mem elems _).2 ⟨i0, hi0, sh, hsh, rfl⟩
    constructor
    · show node_trace sq elems r false t_min t_max (tree_init elems)
        (elems.length, t_max, fun _ => 0) = _
      refine node_trace_finds sq elems r t_min t_max hs Hcan Hout i0 t0 n0
        hhit hmax _ hcv ⟨_, hperm.mem_iff.2 hmem, by simp⟩ ?_ _
        (le_refl t_max) hmax
      intro q hq hqi t n hh
      exact huniq q.1.toNat hqi t n hh
    · rw [brute_force_eq_bstep sq elems r t_min t_max hs Hcan]
      exact foldl_bstep_finds hs i0 t0 n0 hhit (List.range elems.length)
        _ (List.nodup_range _) (List.mem_range.2 hi0) hmax
        fun j _ hj t n => huniq j hj t n

theorem bvh_brute_force_equivalence_amended_witness :
    ((tree_trace (fun x : ℚ => x) [] ⟨![0,0,0], ![1,0,0]⟩ false 0 1).2.1
      = (brute_force_search (fun x : ℚ => x) [] ⟨![0,0,0], ![1,0,0]⟩
          false 0 1).2.1)
    ∧ ∀ i0 t0 n0, (none : Option (ℚ × V3 ℚ)) = some (t0, n0) → t0 < 1 →
        (∀ j : ℕ, j ≠ i0 → ∀ t n, (none : Option (ℚ × V3 ℚ)) = some (t, n) →
          t0 < t) →
        tree_trace (fun x : ℚ => x) [] ⟨![0,0,0], ![1,0,0]⟩ false 0 1
          = (i0, t0, n0)
        ∧ brute_force_search (fun x : ℚ => x) [] ⟨![0,0,0], ![1,0,0]⟩
            false 0 1 = (i0, t0, n0) :=
  bvh_brute_force_equivalence_amended (fun x : ℚ => x) [] ⟨![0,0,0], ![1,0,0]⟩
    0 1 (fun _ => none)
    (by intro i hi; exact absurd hi (by simp))
    (fun _ _ => rfl)
    (by intro q hq; simp [tree_leaf_list] at hq)

/-- The boundary-tie triangle: a large triangle in the plane `x = 5`. -/
def cex_tri : triangle_t ℚ :=
  triangle_mk (fun x => x) ![5, -1, -1] ![5, 9, -1] ![5, -1, 9]

/-- A single element holding `cex_tri` under the identity transform. -/
def cex_elem : element_t ℚ :=
  ⟨some cex_tri.to_shape, ⟨1, 1⟩, element_default.shader⟩

/-- A ray from the origin along `+x`, hitting `cex_tri` at exactly `t = 5`. -/
def cex_ray : ray_t ℚ := ⟨![0, 0, 0], ![1, 0, 0]⟩

theorem cex_elem_hit :
    cex_elem.intersects (fun x : ℚ => x) cex_ray 0 5
      = some (5, ![-100, 0, 0]) := by
  norm_num [cex_elem, cex_tri, cex_ray, element_t.intersects,
    transform_t.apply_inverse_ray, transform_t.apply_inverse_pt,
    transform_t.apply_normal, homog_pt, dehomog, Matrix.one_mulVec,
    ray_set, normalize3, dot3, cross3, triangle_mk, triangle_t.to_shape,
    triangle_t.intersects, Matrix.transpose_one,
    Matrix.cons_val_zero, Matrix.cons_val_one, Matrix.head_cons,
    Matrix.cons_val_two, Matrix.tail_cons]
  funext i
  fin_cases i <;> norm_num [normalize3, dot3]

/-- C1 counterexample: with a single element whose nearest hit lies exactly
at `t = t_max` (ray from the origin along `+x`, triangle in the plane
`x = 5`, range `[0, 5]`), the brute-force scan records the hit (it accepts
`t ≤` the running best, initialized to `t_max`), but the tree traversal does
not (`aabb_node_t::trace` records only strictly closer hits, `t < t_best`
with `t_best` initialized to `t_max`): the tree reports the no-hit triple
`(1, 5, 0)` while brute force reports the hit `(0, 5, n)`.  The two searches
therefore do not return the same (index, t, normal) triple. -/
theorem bvh_brute_force_equivalence_counterexample :
    tree_trace (fun x : ℚ => x) [cex_elem] cex_ray false 0 5
      ≠ brute_force_search (fun x : ℚ => x) [cex_elem] cex_ray false 0 5 := by
  have hbrute : brute_force_search (fun x : ℚ => x) [cex_elem] cex_ray
      false 0 5 = (0, 5, ![-100, 0, 0]) := by
    unfold brute_force_search
    simp only [List.length_singleton, List.range_succ, List.range_zero,
      List.nil_append, List.foldl_cons, List.foldl_nil, Bool.false_eq_true,
      false_and, if_false, List.getD_cons_zero]
    rw [cex_elem_hit]
  have htll : tree_leaf_list [cex_elem]
      = [((0 : ℤ), cex_tri.to_shape.get_bounds.apply
          (⟨1, 1⟩ : transform_t ℚ))] := by
    simp [tree_leaf_list, cex_elem, List.range_succ]
  have htree : tree_trace (fun x : ℚ => x) [cex_elem] cex_ray false 0 5
      = (1, 5, fun _ => 0) := by
    unfold tree_trace tree_init
    rw [htll, node_init, node_trace]
    simp only [Bool.false_eq_true, false_and, if_false, List.length_singleton,
      List.getD_cons_zero]
    norm_num [cex_elem_hit]
  intro h
  rw [htree, hbrute] at h
  exact absurd (congrArg Prod.fst h) (by norm_num)

/-! ## Scene: lights, shading, and the recursive trace (scene/scene.h,
scene.cpp, phong_shader.cpp) -/

/-- Modelled from the spec: `color_t` (color/color.h) is used throughout the
shading code but implemented outside the source files.  Per the spec a color
is a per-channel `(r, g, b)` triple and color-by-color products
(`material.ka * light.color`, `material.kr * trace(...)`) act per channel;
colors are modelled as 3-vectors and this is their componentwise product. -/
def cmul (a b : V3 α) : V3 α := fun i => a i * b i

/-- `light_t::LIGHT_TYPE` (scene/scene.h). -/
inductive light_type where
  | directional
  | point_no_falloff
  | point_linear_falloff
  | point_quadratic_falloff
  | ambient

/-- `light_t` (scene/scene.h): a light type, the value vector `v` (position
for point lights, direction for directional lights), and a color. -/
structure light_t (α : Type*) where
  type : light_type
  v : V3 α
  color : V3 α

/-- `light_t::is_ambient()`. -/
def light_t.is_ambient (l : light_t α) : Bool :=
  match l.type with
  | .ambient => true
  | _ => false

/-- `light_t::get_direction(p)` (scene/scene.h): the direction from the
source to the point — normalized `p - v` for point lights, `v` itself for
directional lights (and for ambient lights, where it does not matter). -/
def light_t.get_direction (sq : α → α) (l : light_t α) (p : V3 α) : V3 α :=
  match l.type with
  | .point_no_falloff | .point_linear_falloff | .point_quadratic_falloff =>
      normalize3 sq (p - l.v)
  | .ambient | .directional => l.v

/-- `FLT_MAX`, the upper search bound used by `scene_t::trace`. -/
def FLT_MAX : α := 340282346638528859811704183484516925440

/-- `light_t::get_distance(p)` (scene/scene.h): distance to a point light,
`FLT_MAX` for directional lights, `0` for ambient lights. -/
def light_t.get_distance (sq : α → α) (l : light_t α) (p : V3 α) : α :=
  match l.type with
  | .point_no_falloff | .point_linear_falloff | .point_quadratic_falloff =>
      sq (dot3 (p - l.v) (p - l.v))
  | .directional => FLT_MAX
  | .ambient => 0

/-- `light_t::get_color_at(p)` (scene/scene.h): the color, attenuated by
`1/d` for linear-falloff and `1/d^2` for quadratic-falloff point lights. -/
def light_t.get_color_at (sq : α → α) (l : light_t α) (p : V3 α) : V3 α :=
  match l.type with
  | .ambient | .directional | .point_no_falloff => l.color
  | .point_linear_falloff =>
      fun i => l.color i * (1 / l.get_distance sq p)
  | .point_quadratic_falloff =>
      fun i => l.color i * (1 / (l.get_distance sq p * l.get_distance sq p))

/-- `phong_shader_t::compute_phong(N, V, L, I)` (scene/phong_shader.cpp):
`C = ka + kd*max(-L.N, 0) + ks*powf(max(R.V, 0), p)` with the reflected
light direction `R = L - 2(L.N)N`, then `C *= I`. -/
def phong_shader_t.compute_phong (pw : α → α → α) (sh : phong_shader_t α)
    (N V L I : V3 α) : V3 α :=
  let lndot := dot3 L N
  let R := L - (2 * lndot) • N
  cmul (sh.ka + max (-lndot) 0 • sh.kd + pw (max (dot3 R V) 0) sh.p • sh.ks) I

/-- `element_t::compute_ambient(light)` (scene/element.h):
`shader.ka * light.get_color()`. -/
def element_t.compute_ambient (e : element_t α) (li : light_t α) : V3 α :=
  cmul e.shader.ka li.color

/-- `element_t::compute_phong(P, N, V, light)` (scene/element.h): delegate to
the shader with `L = light.get_direction(P)` and `I = light.get_color_at(P)`. -/
def element_t.compute_phong (sq : α → α) (pw : α → α → α) (e : element_t α)
    (P N V : V3 α) (li : light_t α) : V3 α :=
  e.shader.compute_phong pw N V (li.get_direction sq P) (li.get_color_at sq P)

/-- `element_t::compute_normal_shading(N)` (scene/element.h):
`0.5 * (N + 1)` per channel. -/
def element_t.compute_normal_shading (e : element_t α) (N : V3 α) : V3 α :=
  fun i => (N i + 1) / 2

/-- `scene_t` (scene/scene.h): the state read by `scene_t::trace`. -/
structure scene_t (α : Type*) where
  elements : List (element_t α)
  lights : List (light_t α)
  camera : camera_t α
  render_normal_shading : Bool
  use_brute_force_search : Bool

/-- The `EPSILON` of scene.cpp (`#define EPSILON 0.001`), the lower search
bound of all primary and shadow queries in `scene_t::trace`. -/
def EPSILON : α := 1 / 1000

/-- The element search of `scene_t::trace`: `brute_force_search` or
`tree.trace` according to the `use_brute_force_search` flag. -/
def scene_search (sq : α → α) (s : scene_t α) (r : ray_t α) (sc : Bool)
    (t_min t_max : α) : ℕ × α × V3 α :=
  if s.use_brute_force_search then
    brute_force_search sq s.elements r sc t_min t_max
  else tree_trace sq s.elements r sc t_min t_max

/-- The per-light accumulation step of `scene_t::trace` (scene.cpp): ambient
lights always add `compute_ambient`; other lights cast a shadow ray from the
hit point toward the light, queried with `shortcircuit=true` over
`(EPSILON, lightdist)`, add nothing when `isshadowed = (i != num_elems)`,
and otherwise add `compute_phong`. -/
def scene_light_step (sq : α → α) (pw : α → α → α) (s : scene_t α)
    (ebest : element_t α) (pos normal viewdir : V3 α) (acc : V3 α)
    (li : light_t α) : V3 α :=
  if li.is_ambient then acc + ebest.compute_ambient li
  else
    let lightdir := -(li.get_direction sq pos)
    let lightdist := li.get_distance sq pos
    let shadow := ray_set sq pos lightdir
    if (scene_search sq s shadow true EPSILON lightdist).1 ≠ s.elements.length
    then acc
    else acc + ebest.compute_phong sq pw pos normal viewdir li

/-- The body of `scene_t::trace` (scene.cpp) after the depth check, with the
single recursive call (`this->trace(bounce, r-1)`) abstracted as `cont`:
search for the nearest element over `[EPSILON, FLT_MAX]`; no hit returns
black; normal-shading mode returns the normal shading; otherwise accumulate
every light's contribution from the hit point and add
`shader.kr * cont(bounce)` for the reflection bounce
`-viewdir + 2(viewdir.normal)normal`. -/
def scene_shade (sq : α → α) (pw : α → α → α) (s : scene_t α) (r : ray_t α)
    (cont : ray_t α → V3 α) : V3 α :=
  let sr := scene_search sq s r false EPSILON FLT_MAX
  if sr.1 = s.elements.length then 0
  else
    let ebest := s.elements.getD sr.1 element_default
    if s.render_normal_shading then ebest.compute_normal_shading sr.2.2
    else
      let pos := r.point_at sr.2.1
      let viewdir := normalize3 sq (s.camera.eye - pos)
      let direct := s.lights.foldl
        (scene_light_step sq pw s ebest pos sr.2.2 viewdir) 0
      let bounce := ray_set sq pos
        (-viewdir + (2 * dot3 viewdir sr.2.2) • sr.2.2)
      direct + cmul ebest.shader.kr (cont bounce)

/-- `scene_t::trace(ray, r)` (scene.cpp): black at negative depth, otherwise
the shading body with the reflection traced at depth `r - 1`. -/
def scene_t.trace (sq : α → α) (pw : α → α → α) (s : scene_t α)
    (r : ray_t α) (rd : ℤ) : V3 α :=
  if rd < 0 then 0
  else scene_shade sq pw s r (fun b => scene_t.trace sq pw s b (rd - 1))
termination_by (rd + 1).toNat
decreasing_by
  simp only [not_lt] at *
  omega

/-- C9: `scene_t::trace` terminates for every scene, ray, and integer depth
(it is a total function of `rd`, defined by well-founded recursion on
`(rd + 1).toNat`): at `depth < 0` it returns the zero (black) color
immediately, and at `depth >= 0` it equals the non-recursive shading body
whose only recursive occurrence is the reflection bounce traced at
`depth - 1`, so the recursion is bounded by the initial depth. -/
theorem scene_trace_termination (sq : α → α) (pw : α → α → α)
    (s : scene_t α) (r : ray_t α) :
    (∀ rd : ℤ, rd < 0 → scene_t.trace sq pw s r rd = 0)
    ∧ ∀ rd : ℤ, 0 ≤ rd → scene_t.trace sq pw s r rd
        = scene_shade sq pw s r (fun b => scene_t.trace sq pw s b (rd - 1)) := by
  constructor
  · intro rd h
    rw [scene_t.trace, if_pos h]
  · intro rd h
    rw [scene_t.trace, if_neg (not_lt.2 h)]

theorem scene_trace_termination_witness :
    (scene_t.trace (fun x : ℚ => x) (fun x _ => x)
        ⟨[], [], ⟨![0,0,0], ![0,0,0], ![0,0,0], ![0,0,0], ![0,0,0]⟩,
          false, true⟩ ⟨![0,0,0], ![1,0,0]⟩ (-1) = 0)
    ∧ (scene_t.trace (fun x : ℚ => x) (fun x _ => x)
        ⟨[], [], ⟨![0,0,0], ![0,0,0], ![0,0,0], ![0,0,0], ![0,0,0]⟩,
          false, true⟩ ⟨![0,0,0], ![1,0,0]⟩ 0
        = scene_shade (fun x : ℚ => x) (fun x _ => x)
            ⟨[], [], ⟨![0,0,0], ![0,0,0], ![0,0,0], ![0,0,0], ![0,0,0]⟩,
              false, true⟩ ⟨![0,0,0], ![1,0,0]⟩
            (fun b => scene_t.trace (fun x : ℚ => x) (fun x _ => x)
              ⟨[], [], ⟨![0,0,0], ![0,0,0], ![0,0,0], ![0,0,0], ![0,0,0]⟩,
                false, true⟩ b (0 - 1))) :=
  ⟨(scene_trace_termination (fun x : ℚ => x) (fun x _ => x)
      ⟨[], [], ⟨![0,0,0], ![0,0,0], ![0,0,0], ![0,0,0], ![0,0,0]⟩,
        false, true⟩ ⟨![0,0,0], ![1,0,0]⟩).1 (-1) (by norm_num),
   (scene_trace_termination (fun x : ℚ => x) (fun x _ => x)
      ⟨[], [], ⟨![0,0,0], ![0,0,0], ![0,0,0], ![0,0,0], ![0,0,0]⟩,
        false, true⟩ ⟨![0,0,0], ![1,0,0]⟩).2 0 (by norm_num)⟩

/-- C6: in the light loop of `scene_t::trace`, a non-ambient light whose
shadow ray — cast from the hit point toward the light and queried with
`shortcircuit=true` over `(EPSILON, light_distance)` — hits any element
(`isshadowed = (i != num_elems)`) contributes nothing to the accumulated
color, while an ambient light always contributes `shader.ka * light.color`,
with no shadow query at all. -/
theorem shadow_occlusion_zeroes_light (sq : α → α) (pw : α → α → α)
    (s : scene_t α) (ebest : element_t α)
    (pos normal viewdir acc : V3 α) (li : light_t α) :
    (li.is_ambient = true →
      scene_light_step sq pw s ebest pos normal viewdir acc li
        = acc + cmul ebest.shader.ka li.color)
    ∧ (li.is_ambient = false →
      (scene_search sq s (ray_set sq pos (-(li.get_direction sq pos))) true
          EPSILON (li.get_distance sq pos)).1 ≠ s.elements.length →
      scene_light_step sq pw s ebest pos normal viewdir acc li = acc) := by
  constructor
  · intro hamb
    unfold scene_light_step
    rw [if_pos hamb]
    rfl
  · intro hamb hsh
    unfold scene_light_step
    simp only [hamb, Bool.false_eq_true, if_false]
    rw [if_pos hsh]

/-- The one-element scene (the `x = 5` triangle) used to exercise shadowing. -/
def wshadow_scene : scene_t ℚ :=
  ⟨[cex_elem], [], ⟨![0,0,0], ![0,0,0], ![0,0,0], ![0,0,0], ![0,0,0]⟩,
    false, true⟩

/-- An ambient light. -/
def wamb_light : light_t ℚ := ⟨.ambient, ![0,0,0], ![1, 1/2, 1/4]⟩

/-- A point light at `(10,0,0)`, behind the `x = 5` triangle as seen from the
origin. -/
def wpt_light : light_t ℚ := ⟨.point_no_falloff, ![10, 0, 0], ![1, 1, 1]⟩

theorem wpt_light_distance :
    wpt_light.get_distance (fun x : ℚ => x) ![0, 0, 0] = 100 := by
  norm_num [wpt_light, light_t.get_distance, dot3]

theorem wshadow_query :
    cex_elem.intersects (fun x : ℚ => x)
      (ray_set (fun x : ℚ => x) ![0, 0, 0]
        (-(wpt_light.get_direction (fun x : ℚ => x) ![0, 0, 0])))
      EPSILON 100 = some (1/2, ![-100, 0, 0]) := by
  norm_num [cex_elem, cex_tri, wpt_light, light_t.get_direction, ray_set,
    EPSILON, element_t.intersects, transform_t.apply_inverse_ray,
    transform_t.apply_inverse_pt, transform_t.apply_normal, homog_pt,
    dehomog, Matrix.one_mulVec, normalize3, dot3, cross3, triangle_mk,
    triangle_t.to_shape, triangle_t.intersects, Matrix.transpose_one,
    Matrix.cons_val_zero, Matrix.cons_val_one, Matrix.head_cons,
    Matrix.cons_val_two, Matrix.tail_cons]
  funext i
  fin_cases i <;> norm_num [normalize3, dot3]

theorem wshadow_hit :
    (scene_search (fun x : ℚ => x) wshadow_scene
        (ray_set (fun x : ℚ => x) ![0, 0, 0]
          (-(wpt_light.get_direction (fun x : ℚ => x) ![0, 0, 0])))
        true EPSILON
        (wpt_light.get_distance (fun x : ℚ => x) ![0, 0, 0])).1
      ≠ wshadow_scene.elements.length := by
  rw [wpt_light_distance]
  unfold scene_search
  simp only [wshadow_scene, if_true]
  unfold brute_force_search
  simp only [List.length_singleton, List.range_succ, List.range_zero,
    List.nil_append, List.foldl_cons, List.foldl_nil, List.getD_cons_zero]
  norm_num [wshadow_query]

theorem shadow_occlusion_zeroes_light_witness :
    (scene_light_step (fun x : ℚ => x) (fun x _ => x) wshadow_scene cex_elem
        ![0, 0, 0] ![1, 0, 0] ![1, 0, 0] 0 wamb_light
      = 0 + cmul cex_elem.shader.ka wamb_light.color)
    ∧ scene_light_step (fun x : ℚ => x) (fun x _ => x) wshadow_scene cex_elem
        ![0, 0, 0] ![1, 0, 0] ![1, 0, 0] 0 wpt_light = 0 :=
  ⟨(shadow_occlusion_zeroes_light (fun x : ℚ => x) (fun x _ => x)
      wshadow_scene cex_elem ![0, 0, 0] ![1, 0, 0] ![1, 0, 0] 0
      wamb_light).1 rfl,
   (shadow_occlusion_zeroes_light (fun x : ℚ => x) (fun x _ => x)
      wshadow_scene cex_elem ![0, 0, 0] ![1, 0, 0] ![1, 0, 0] 0
      wpt_light).2 rfl wshadow_hit⟩
